import Mathlib

set_option maxRecDepth 100000

/-!
Verification development for the gearcutter geometric kernel.

The TypeScript sources are embedded shallowly over exact rationals (`ℚ`):
IEEE double values are modelled as exact rational values, and every
arithmetic operation of the source is modelled by the corresponding exact
rational operation.  Loops whose termination in the source relies on
floating-point granularity (binary search bisection, logarithmic range
contraction) take an explicit `fuel` parameter; transcendental operations
(`Math.sin`, `Math.cos`, `Math.atan2`, `Math.sqrt`, `Math.PI`) are
abstracted as function or value parameters, so that every definition stays
computable and the theorems quantify over the abstracted functions.

The rational operations of the model (`fadd`, `fsub`, `fmul`, `fdiv`,
`fneg`, `fabs`) are implemented through `mkRat` / `Rat.divInt` so that
concrete executions reduce inside the kernel; the bridge lemmas `fadd_eq`
etc. identify them with the ordinary field operations of `ℚ`, and all
abstract reasoning goes through those.
-/

/-! ### Exact-rational model of double arithmetic -/

/-- Model of double addition: exact rational addition, via `mkRat`. -/
def fadd (a b : ℚ) : ℚ := mkRat (a.num * b.den + b.num * a.den) (a.den * b.den)

/-- Model of double subtraction: exact rational subtraction, via `mkRat`. -/
def fsub (a b : ℚ) : ℚ := mkRat (a.num * b.den - b.num * a.den) (a.den * b.den)

/-- Model of double multiplication: exact rational multiplication. -/
def fmul (a b : ℚ) : ℚ := mkRat (a.num * b.num) (a.den * b.den)

/-- Model of double division: exact rational division (with `x / 0 = 0`). -/
def fdiv (a b : ℚ) : ℚ := Rat.divInt (a.num * b.den) (a.den * b.num)

/-- Model of double negation. -/
def fneg (a : ℚ) : ℚ := mkRat (-a.num) a.den

/-- Model of `Math.abs`. -/
def fabs (a : ℚ) : ℚ := mkRat (a.num.natAbs : Int) a.den

theorem den_int_ne (a : ℚ) : ((a.den : ℤ)) ≠ 0 := Int.natCast_ne_zero.mpr a.den_nz

theorem fadd_eq (a b : ℚ) : fadd a b = a + b := by
  rw [fadd, Rat.mkRat_eq_divInt]
  conv_rhs => rw [← Rat.num_divInt_den a, ← Rat.num_divInt_den b]
  rw [Rat.divInt_add_divInt _ _ (den_int_ne a) (den_int_ne b)]
  push_cast
  ring_nf

theorem fsub_eq (a b : ℚ) : fsub a b = a - b := by
  rw [fsub, Rat.mkRat_eq_divInt]
  conv_rhs => rw [← Rat.num_divInt_den a, ← Rat.num_divInt_den b]
  rw [Rat.divInt_sub_divInt _ _ (den_int_ne a) (den_int_ne b)]
  push_cast
  ring_nf

theorem fmul_eq (a b : ℚ) : fmul a b = a * b := by
  rw [fmul, Rat.mkRat_eq_divInt]
  conv_rhs => rw [← Rat.num_divInt_den a, ← Rat.num_divInt_den b]
  rw [Rat.divInt_mul_divInt']
  push_cast
  ring_nf

theorem fneg_eq (a : ℚ) : fneg a = -a := by
  rw [fneg, Rat.mkRat_eq_divInt, Rat.neg_def]

theorem fdiv_eq (a b : ℚ) : fdiv a b = a / b := (Rat.div_def' a b).symm

theorem fabs_eq (a : ℚ) : fabs a = |a| := by
  rcases le_or_lt 0 a with ha | ha
  · rw [abs_of_nonneg ha, fabs,
      Int.natAbs_of_nonneg (Rat.num_nonneg.mpr ha), Rat.mkRat_self]
  · rw [abs_of_neg ha, fabs,
      Int.ofNat_natAbs_of_nonpos (le_of_lt (Rat.num_neg.mpr ha)),
      Rat.mkRat_eq_divInt, ← Rat.neg_def]

theorem ffloor_eq (a : ℚ) : Rat.floor a = ⌊a⌋ := (Rat.floor_def' a).trans Rat.floor_def.symm

/-! ### floatBinarySearch.ts -/

/-- Embedding of `scaleRange` from floatBinarySearch.ts: reduce a positive
range until `low/high >= minScale`, probing `high * minScale` at each
unwinding step.  The recursion on `minScale * minScale` terminates in the
source because repeated squaring underflows to zero; the `fuel` parameter
models that bound. -/
def scaleRange (pred : ℚ → Bool) : Nat → ℚ → ℚ → ℚ → ℚ × ℚ
  | 0, low, high, _ => (low, high)
  | fuel + 1, low, high, minScale =>
    if 0 < minScale ∧ low < fmul high minScale then
      let r := scaleRange pred fuel low high (fmul minScale minScale)
      let test := fmul r.2 minScale
      if r.1 < test ∧ test < r.2 then
        if pred test then (test, r.2) else (r.1, test)
      else r
    else (low, high)

/-- Embedding of `getLinearRange` from floatBinarySearch.ts: reduce a
floating-point range to a size where conventional binary search is
appropriate, handling sign crossings by negation. -/
def getLinearRange (fuel : Nat) (low high : ℚ) (isLowerBound : ℚ → Bool) : ℚ × ℚ :=
  if low < 0 then
    if 0 < high then
      if isLowerBound 0 then
        scaleRange isLowerBound fuel 0 high (mkRat 1 4)
      else
        let negRange := scaleRange (fun n => !isLowerBound (fneg n)) fuel 0 (fneg low) (mkRat 1 4)
        (fneg negRange.2, fneg negRange.1)
    else
      let negRange :=
        scaleRange (fun n => !isLowerBound (fneg n)) fuel (fneg high) (fneg low) (mkRat 1 4)
      (fneg negRange.2, fneg negRange.1)
  else
    scaleRange isLowerBound fuel low high (mkRat 1 4)

/-- Embedding of the midpoint bisection loop in `searchForFloat`.  In the
source the loop exits when the midpoint collapses onto an endpoint, which
happens after finitely many steps in doubles; the `fuel` parameter models
that bound. -/
def bisectLoop (pred : ℚ → Bool) : Nat → ℚ → ℚ → ℚ × ℚ
  | 0, lo, hi => (lo, hi)
  | fuel + 1, lo, hi =>
    let testVal := fadd lo (fmul (fsub hi lo) (mkRat 1 2))
    if testVal ≤ lo ∨ hi ≤ testVal then (lo, hi)
    else if pred testVal then bisectLoop pred fuel testVal hi
    else bisectLoop pred fuel lo testVal

/-- Embedding of `searchForFloat` from floatBinarySearch.ts. -/
def searchForFloat (fuel : Nat) (lo hi : ℚ) (isLowerBound : ℚ → Bool) : ℚ × ℚ :=
  if lo < hi then
    let r := getLinearRange fuel lo hi isLowerBound
    bisectLoop isLowerBound fuel r.1 r.2
  else (lo, hi)

theorem scaleRange_le {pred : ℚ → Bool} {fuel : Nat} {low high minScale : ℚ} :
    low ≤ (scaleRange pred fuel low high minScale).1 ∧
      (scaleRange pred fuel low high minScale).2 ≤ high := by
  induction fuel generalizing minScale with
  | zero => exact ⟨le_refl _, le_refl _⟩
  | succ n ih =>
    simp only [scaleRange]
    split
    · split
      · rename_i hguard
        split
        · exact ⟨le_trans (@ih (fmul minScale minScale)).1 (le_of_lt hguard.1),
            (@ih (fmul minScale minScale)).2⟩
        · exact ⟨(@ih (fmul minScale minScale)).1,
            le_trans (le_of_lt hguard.2) (@ih (fmul minScale minScale)).2⟩
      · exact @ih (fmul minScale minScale)
    · exact ⟨le_refl _, le_refl _⟩

theorem scaleRange_lt {pred : ℚ → Bool} {fuel : Nat} {low high minScale : ℚ}
    (h : low < high) :
    (scaleRange pred fuel low high minScale).1 < (scaleRange pred fuel low high minScale).2 := by
  induction fuel generalizing minScale with
  | zero => exact h
  | succ n ih =>
    simp only [scaleRange]
    split
    · split
      · rename_i hguard
        split
        · exact hguard.2
        · exact hguard.1
      · exact @ih (fmul minScale minScale)
    · exact h

theorem scaleRange_pred {pred : ℚ → Bool} {fuel : Nat} {low high minScale : ℚ} :
    (pred (scaleRange pred fuel low high minScale).1 = true ∨
      (scaleRange pred fuel low high minScale).1 = low) ∧
    (pred (scaleRange pred fuel low high minScale).2 = false ∨
      (scaleRange pred fuel low high minScale).2 = high) := by
  induction fuel generalizing minScale with
  | zero => exact ⟨Or.inr rfl, Or.inr rfl⟩
  | succ n ih =>
    simp only [scaleRange]
    split
    · split
      · split
        · rename_i hp
          exact ⟨Or.inl hp, (@ih (fmul minScale minScale)).2⟩
        · rename_i hp
          exact ⟨(@ih (fmul minScale minScale)).1,
            Or.inl (Bool.not_eq_true _ ▸ Bool.of_not_eq_true hp)⟩
      · exact @ih (fmul minScale minScale)
    · exact ⟨Or.inr rfl, Or.inr rfl⟩

theorem bisectLoop_le {pred : ℚ → Bool} {fuel : Nat} {lo hi : ℚ} :
    lo ≤ (bisectLoop pred fuel lo hi).1 ∧ (bisectLoop pred fuel lo hi).2 ≤ hi := by
  induction fuel generalizing lo hi with
  | zero => exact ⟨le_refl _, le_refl _⟩
  | succ n ih =>
    simp only [bisectLoop]
    split
    · exact ⟨le_refl _, le_refl _⟩
    · rename_i hguard
      push_neg at hguard
      split
      · exact ⟨le_trans (le_of_lt hguard.1) ih.1, ih.2⟩
      · exact ⟨ih.1, le_trans ih.2 (le_of_lt hguard.2)⟩

theorem bisectLoop_lt {pred : ℚ → Bool} {fuel : Nat} {lo hi : ℚ} (h : lo < hi) :
    (bisectLoop pred fuel lo hi).1 < (bisectLoop pred fuel lo hi).2 := by
  induction fuel generalizing lo hi with
  | zero => exact h
  | succ n ih =>
    simp only [bisectLoop]
    split
    · exact h
    · rename_i hguard
      push_neg at hguard
      split
      · exact ih hguard.2
      · exact ih hguard.1

theorem bisectLoop_pred {pred : ℚ → Bool} {fuel : Nat} {lo hi : ℚ} :
    (pred (bisectLoop pred fuel lo hi).1 = true ∨ (bisectLoop pred fuel lo hi).1 = lo) ∧
    (pred (bisectLoop pred fuel lo hi).2 = false ∨ (bisectLoop pred fuel lo hi).2 = hi) := by
  induction fuel generalizing lo hi with
  | zero => exact ⟨Or.inr rfl, Or.inr rfl⟩
  | succ n ih =>
    simp only [bisectLoop]
    split
    · exact ⟨Or.inr rfl, Or.inr rfl⟩
    · split
      · rename_i hp
        refine ⟨?_, ih.2⟩
        rcases (@ih (fadd lo (fmul (fsub hi lo) (mkRat 1 2))) hi).1 with h | h
        · exact Or.inl h
        · exact Or.inl (by rw [h]; exact hp)
      · rename_i hp
        refine ⟨ih.1, ?_⟩
        rcases (@ih lo (fadd lo (fmul (fsub hi lo) (mkRat 1 2)))).2 with h | h
        · exact Or.inl h
        · exact Or.inl (by rw [h]; exact Bool.of_not_eq_true hp)

theorem getLinearRange_le {fuel : Nat} {low high : ℚ} {pred : ℚ → Bool} :
    low ≤ (getLinearRange fuel low high pred).1 ∧
      (getLinearRange fuel low high pred).2 ≤ high := by
  unfold getLinearRange
  split
  · rename_i hlow
    split
    · rename_i hhigh
      split
      · exact ⟨le_trans (le_of_lt hlow) scaleRange_le.1, scaleRange_le.2⟩
      · constructor
        · have h := (@scaleRange_le (fun n => !pred (fneg n)) fuel 0 (fneg low) (mkRat 1 4)).2
          simp only [fneg_eq] at h ⊢
          linarith
        · have h := (@scaleRange_le (fun n => !pred (fneg n)) fuel 0 (fneg low) (mkRat 1 4)).1
          simp only [fneg_eq] at h ⊢
          linarith
    · rename_i hhigh
      push_neg at hhigh
      constructor
      · have h := (@scaleRange_le (fun n => !pred (fneg n)) fuel (fneg high) (fneg low) (mkRat 1 4)).2
        simp only [fneg_eq] at h ⊢
        linarith
      · have h := (@scaleRange_le (fun n => !pred (fneg n)) fuel (fneg high) (fneg low) (mkRat 1 4)).1
        simp only [fneg_eq] at h ⊢
        linarith
  · exact scaleRange_le

theorem getLinearRange_lt {fuel : Nat} {low high : ℚ} {pred : ℚ → Bool}
    (hlh : low < high) :
    (getLinearRange fuel low high pred).1 < (getLinearRange fuel low high pred).2 := by
  unfold getLinearRange
  split
  · rename_i hlow
    split
    · rename_i hhigh
      split
      · exact scaleRange_lt hhigh
      · have h := @scaleRange_lt (fun n => !pred (fneg n)) fuel 0 (fneg low) (mkRat 1 4)
          (by simp only [fneg_eq]; linarith)
        simp only [fneg_eq] at h ⊢
        linarith
    · rename_i hhigh
      push_neg at hhigh
      have h := @scaleRange_lt (fun n => !pred (fneg n)) fuel (fneg high) (fneg low) (mkRat 1 4)
        (by simp only [fneg_eq]; linarith)
      simp only [fneg_eq] at h ⊢
      linarith
  · exact scaleRange_lt hlh

theorem getLinearRange_pred {fuel : Nat} {low high : ℚ} {pred : ℚ → Bool} :
    (pred (getLinearRange fuel low high pred).1 = true ∨
      (getLinearRange fuel low high pred).1 = low) ∧
    (pred (getLinearRange fuel low high pred).2 = false ∨
      (getLinearRange fuel low high pred).2 = high) := by
  unfold getLinearRange
  split
  · rename_i hlow
    split
    · rename_i hhigh
      split
      · rename_i hzero
        constructor
        · rcases (@scaleRange_pred pred fuel 0 high (mkRat 1 4)).1 with h | h
          · exact Or.inl h
          · exact Or.inl (by rw [h]; exact hzero)
        · exact (@scaleRange_pred pred fuel 0 high (mkRat 1 4)).2
      · rename_i hzero
        constructor
        · rcases (@scaleRange_pred (fun n => !pred (fneg n)) fuel 0 (fneg low) (mkRat 1 4)).2 with h | h
          · simp only [Bool.not_eq_false'] at h
            exact Or.inl h
          · refine Or.inr ?_
            simp only [fneg_eq] at h ⊢
            rw [h]
            ring
        · rcases (@scaleRange_pred (fun n => !pred (fneg n)) fuel 0 (fneg low) (mkRat 1 4)).1 with h | h
          · simp only [Bool.not_eq_true'] at h
            exact Or.inl h
          · refine Or.inl ?_
            simp only [fneg_eq] at h ⊢
            rw [h, neg_zero]
            exact Bool.of_not_eq_true hzero
    · rename_i hhigh
      constructor
      · rcases (@scaleRange_pred (fun n => !pred (fneg n)) fuel (fneg high) (fneg low) (mkRat 1 4)).2 with h | h
        · simp only [Bool.not_eq_false'] at h
          exact Or.inl h
        · refine Or.inr ?_
          simp only [fneg_eq] at h ⊢
          rw [h]
          ring
      · rcases (@scaleRange_pred (fun n => !pred (fneg n)) fuel (fneg high) (fneg low) (mkRat 1 4)).1 with h | h
        · simp only [Bool.not_eq_true'] at h
          exact Or.inl h
        · refine Or.inr ?_
          simp only [fneg_eq] at h ⊢
          rw [h]
          ring
  · exact scaleRange_pred

/-- Claim C3 (amended): for `lo < hi` and `pred lo = true`, `searchForFloat`
returns a bracketing pair `(l, h)` with `lo ≤ l < h ≤ hi` and `pred l = true`,
and either `pred h = false` or `h = hi` (when the predicate holds on the whole
range the upper end `hi` is returned unchanged and the predicate still holds
there); for `lo ≥ hi` the pair `(lo, hi)` is returned unchanged.  The one-ULP
tightness of the bracket concerns binary floating-point granularity and is
outside this exact-rational model. -/
theorem searchForFloat_bracket (fuel : Nat) (lo hi : ℚ) (pred : ℚ → Bool) :
    (pred lo = true → lo < hi →
      lo ≤ (searchForFloat fuel lo hi pred).1 ∧
      (searchForFloat fuel lo hi pred).1 < (searchForFloat fuel lo hi pred).2 ∧
      (searchForFloat fuel lo hi pred).2 ≤ hi ∧
      pred (searchForFloat fuel lo hi pred).1 = true ∧
      (pred (searchForFloat fuel lo hi pred).2 = false ∨
        (searchForFloat fuel lo hi pred).2 = hi)) ∧
    (¬lo < hi → searchForFloat fuel lo hi pred = (lo, hi)) := by
  constructor
  · intro hpred hlh
    have hunfold : searchForFloat fuel lo hi pred =
        bisectLoop pred fuel (getLinearRange fuel lo hi pred).1
          (getLinearRange fuel lo hi pred).2 := by
      unfold searchForFloat
      rw [if_pos hlh]
    rw [hunfold]
    have hle := @getLinearRange_le fuel lo hi pred
    have hlt := @getLinearRange_lt fuel lo hi pred hlh
    have hpr := @getLinearRange_pred fuel lo hi pred
    refine ⟨le_trans hle.1 bisectLoop_le.1, bisectLoop_lt hlt,
      le_trans bisectLoop_le.2 hle.2, ?_, ?_⟩
    · rcases @bisectLoop_pred pred fuel
        (getLinearRange fuel lo hi pred).1
        (getLinearRange fuel lo hi pred).2 |>.1 with h | h
      · exact h
      · rw [h]
        rcases hpr.1 with h2 | h2
        · exact h2
        · rw [h2]; exact hpred
    · rcases @bisectLoop_pred pred fuel
        (getLinearRange fuel lo hi pred).1
        (getLinearRange fuel lo hi pred).2 |>.2 with h | h
      · exact Or.inl h
      · rw [h]
        rcases hpr.2 with h2 | h2
        · exact Or.inl h2
        · exact Or.inr h2
  · intro h
    unfold searchForFloat
    rw [if_neg h]

/-- Witness for `searchForFloat_bracket` at a concrete input. -/
theorem searchForFloat_bracket_witness :
    (0:ℚ) ≤ (searchForFloat 8 0 1 (fun x => decide (x < mkRat 1 2))).1 ∧
    (searchForFloat 8 0 1 (fun x => decide (x < mkRat 1 2))).1 <
      (searchForFloat 8 0 1 (fun x => decide (x < mkRat 1 2))).2 ∧
    (searchForFloat 8 0 1 (fun x => decide (x < mkRat 1 2))).2 ≤ 1 ∧
    (fun x : ℚ => decide (x < mkRat 1 2))
      (searchForFloat 8 0 1 (fun x => decide (x < mkRat 1 2))).1 = true ∧
    ((fun x : ℚ => decide (x < mkRat 1 2))
        (searchForFloat 8 0 1 (fun x => decide (x < mkRat 1 2))).2 = false ∨
      (searchForFloat 8 0 1 (fun x => decide (x < mkRat 1 2))).2 = 1) :=
  (searchForFloat_bracket 8 0 1 (fun x => decide (x < mkRat 1 2))).1 (by decide) (by decide)

/-- Counterexample to claim C3 as stated: with the always-true predicate,
which is monotone and true at `lo = 0`, and `hi = 1 > lo`, the returned upper
end is `hi = 1` itself and the predicate holds there, instead of being false
as the claim requires. -/
theorem searchForFloat_predHi_cex :
    (fun _ : ℚ => true) 0 = true ∧ (0:ℚ) < 1 ∧
    (searchForFloat 30 0 1 (fun _ => true)).2 = 1 ∧
    (fun _ : ℚ => true) (searchForFloat 30 0 1 (fun _ => true)).2 = true := by
  refine ⟨rfl, by norm_num, ?_, rfl⟩
  decide

theorem scaleRange_congr {p q : ℚ → Bool} {fuel : Nat} {low high minScale LO HI : ℚ}
    (hL : LO ≤ low) (hH : high ≤ HI)
    (hpq : ∀ x, LO < x → x < HI → p x = q x) :
    scaleRange p fuel low high minScale = scaleRange q fuel low high minScale := by
  induction fuel generalizing minScale with
  | zero => rfl
  | succ n ih =>
    simp only [scaleRange]
    by_cases hg : 0 < minScale ∧ low < fmul high minScale
    · rw [if_pos hg, if_pos hg, ← @ih (fmul minScale minScale)]
      by_cases ht : (scaleRange p n low high (fmul minScale minScale)).1 <
            fmul (scaleRange p n low high (fmul minScale minScale)).2 minScale ∧
          fmul (scaleRange p n low high (fmul minScale minScale)).2 minScale <
            (scaleRange p n low high (fmul minScale minScale)).2
      · rw [if_pos ht, if_pos ht,
          hpq _ (lt_of_le_of_lt (le_trans hL scaleRange_le.1) ht.1)
            (lt_of_lt_of_le ht.2 (le_trans scaleRange_le.2 hH))]
      · rw [if_neg ht, if_neg ht]
    · rw [if_neg hg, if_neg hg]

theorem getLinearRange_congr {p q : ℚ → Bool} {fuel : Nat} {low high : ℚ}
    (hpq : ∀ x, low < x → x < high → p x = q x) :
    getLinearRange fuel low high p = getLinearRange fuel low high q := by
  unfold getLinearRange
  by_cases hlow : low < 0
  · rw [if_pos hlow, if_pos hlow]
    by_cases hhigh : 0 < high
    · rw [if_pos hhigh, if_pos hhigh, hpq 0 hlow hhigh]
      by_cases hz : q 0 = true
      · rw [if_pos hz, if_pos hz]
        exact scaleRange_congr (le_of_lt hlow) (le_refl _) hpq
      · rw [if_neg hz, if_neg hz]
        have hsc : scaleRange (fun n => !p (fneg n)) fuel 0 (fneg low) (mkRat 1 4) =
            scaleRange (fun n => !q (fneg n)) fuel 0 (fneg low) (mkRat 1 4) := by
          refine scaleRange_congr (le_refl _) (le_refl _) ?_
          intro x h1 h2
          have h2x : -x < 0 := by linarith
          have h1x : low < -x := by
            rw [fneg_eq] at h2
            linarith
          simp only [fneg_eq]
          rw [hpq (-x) h1x (by linarith)]
        rw [hsc]
    · rw [if_neg hhigh, if_neg hhigh]
      have hsc : scaleRange (fun n => !p (fneg n)) fuel (fneg high) (fneg low) (mkRat 1 4) =
          scaleRange (fun n => !q (fneg n)) fuel (fneg high) (fneg low) (mkRat 1 4) := by
        refine scaleRange_congr (le_refl _) (le_refl _) ?_
        intro x h1 h2
        rw [fneg_eq] at h1 h2
        simp only [fneg_eq]
        rw [hpq (-x) (by linarith) (by linarith)]
      rw [hsc]
  · rw [if_neg hlow, if_neg hlow]
    exact scaleRange_congr (le_refl _) (le_refl _) hpq

theorem bisectLoop_congr {p q : ℚ → Bool} {fuel : Nat} {lo hi LO HI : ℚ}
    (hL : LO ≤ lo) (hH : hi ≤ HI)
    (hpq : ∀ x, LO < x → x < HI → p x = q x) :
    bisectLoop p fuel lo hi = bisectLoop q fuel lo hi := by
  induction fuel generalizing lo hi with
  | zero => rfl
  | succ n ih =>
    simp only [bisectLoop]
    by_cases hg : fadd lo (fmul (fsub hi lo) (mkRat 1 2)) ≤ lo ∨
        hi ≤ fadd lo (fmul (fsub hi lo) (mkRat 1 2))
    · rw [if_pos hg, if_pos hg]
    · rw [if_neg hg, if_neg hg]
      push_neg at hg
      rw [hpq _ (lt_of_le_of_lt hL hg.1) (lt_of_lt_of_le hg.2 hH)]
      by_cases hp : q (fadd lo (fmul (fsub hi lo) (mkRat 1 2))) = true
      · rw [if_pos hp, if_pos hp]
        exact ih (le_trans hL (le_of_lt hg.1)) hH
      · rw [if_neg hp, if_neg hp]
        exact ih hL (le_trans (le_of_lt hg.2) hH)

/-- Claim C10: `searchForFloat` consults the predicate only at values strictly
between `lo` and `hi` — observationally, two predicates that agree on the open
interval `(lo, hi)` produce identical results, for every fuel.  In particular
the predicate's value at `0` can matter only when `lo < 0 < hi`, and for
`lo ≥ hi` the predicate is never consulted at all. -/
theorem searchForFloat_congr (fuel : Nat) (lo hi : ℚ) (p q : ℚ → Bool)
    (hpq : ∀ x, lo < x → x < hi → p x = q x) :
    searchForFloat fuel lo hi p = searchForFloat fuel lo hi q := by
  unfold searchForFloat
  by_cases hlh : lo < hi
  · rw [if_pos hlh, if_pos hlh]
    have hr : getLinearRange fuel lo hi p = getLinearRange fuel lo hi q :=
      getLinearRange_congr hpq
    rw [← hr]
    exact bisectLoop_congr (@getLinearRange_le fuel lo hi p).1
      (@getLinearRange_le fuel lo hi p).2 hpq
  · rw [if_neg hlh, if_neg hlh]

/-- Witness for `searchForFloat_congr`: two predicates differing at `0` (the
endpoint) but agreeing strictly inside `(0, 1)` give identical results. -/
theorem searchForFloat_congr_witness :
    searchForFloat 6 0 1 (fun x => decide (x < mkRat 1 3)) =
      searchForFloat 6 0 1 (fun x => decide (x < mkRat 1 3) && decide (0 < x)) :=
  searchForFloat_congr 6 0 1 _ _ (by
    intro x h1 h2
    simp [h1])

/-! ### XFormPen.ts

The affine-transform state of `XFormPen`.  The delegate pen only receives
transformed outputs and plays no role in the transform algebra, so it is not
part of the state.  `Math.cos((deg * Math.PI) / 180)` and the corresponding
sine are abstracted as the function parameters `cosd`, `sind` taking the
angle in degrees. -/

@[ext]
structure XFormPen where
  rotDegrees : ℚ
  scaleFactor : ℚ
  flipYinFac : ℚ
  xx : ℚ
  xy : ℚ
  tx : ℚ
  ty : ℚ

/-- Constructor state of `XFormPen` (identity transform). -/
def XFormPen.init : XFormPen :=
  { rotDegrees := 0, scaleFactor := 1, flipYinFac := 1, xx := 1, xy := 0, tx := 0, ty := 0 }

/-- Model of `Math.sign`. -/
def fsign (a : ℚ) : ℚ := if 0 < a then 1 else if a < 0 then -1 else 0

/-- Embedding of `XFormPen.transformPoint`. -/
def XFormPen.transformPoint (s : XFormPen) (x y : ℚ) : ℚ × ℚ :=
  (fadd s.tx (fsub (fmul x s.xx) (fmul (fmul y s.flipYinFac) s.xy)),
   fadd s.ty (fadd (fmul x s.xy) (fmul (fmul y s.flipYinFac) s.xx)))

/-- Embedding of `XFormPen.rotate`.  The `quarters & 1` bit test of the
source applies to an integrally-valued float and is modelled by parity of
its floor. -/
def XFormPen.rotate (cosd sind : ℚ → ℚ) (s : XFormPen) (degrees : ℚ) : XFormPen :=
  let rot1 := fadd s.rotDegrees (fmul degrees s.flipYinFac)
  let rot := fsub rot1 (fmul ((Rat.floor (fdiv rot1 360) : ℤ) : ℚ) 360)
  let xx0 := cosd rot
  let xy0 := sind rot
  let quarters := fdiv rot 90
  let snapped :=
    if ((Rat.floor quarters : ℤ) : ℚ) = quarters then
      if Rat.floor quarters % 2 = 0 then (fsign xx0, (0 : ℚ))
      else ((0 : ℚ), fsign xy0)
    else (xx0, xy0)
  { s with rotDegrees := rot,
           xx := fmul snapped.1 s.scaleFactor,
           xy := fmul snapped.2 s.scaleFactor }

/-- Embedding of `XFormPen.translate`. -/
def XFormPen.translate (s : XFormPen) (x y : ℚ) : XFormPen :=
  let p := s.transformPoint x y
  { s with tx := p.1, ty := p.2 }

/-- Embedding of `XFormPen.scale`. -/
def XFormPen.scale (cosd sind : ℚ → ℚ) (s : XFormPen) (fac : ℚ) (flipY : Bool) : XFormPen :=
  let s1 :=
    if fac < 0 then
      let sr := s.rotate cosd sind 180
      { sr with scaleFactor := fmul sr.scaleFactor (fneg fac) }
    else { s with scaleFactor := fmul s.scaleFactor fac }
  let s2 := if flipY then { s1 with flipYinFac := fneg s1.flipYinFac } else s1
  { s2 with xx := fmul (cosd s2.rotDegrees) s2.scaleFactor,
            xy := fmul (sind s2.rotDegrees) s2.scaleFactor }

/-- Embedding of `XFormPen.copy`. -/
def XFormPen.copy (cosd sind : ℚ → ℚ) (s : XFormPen) : XFormPen :=
  XFormPen.scale cosd sind
    (XFormPen.rotate cosd sind (XFormPen.translate XFormPen.init s.tx s.ty) s.rotDegrees)
    s.scaleFactor (decide (s.flipYinFac < 0))

theorem reduce360_bounds (z : ℚ) :
    0 ≤ fsub z (fmul ((Rat.floor (fdiv z 360) : ℤ) : ℚ) 360) ∧
      fsub z (fmul ((Rat.floor (fdiv z 360) : ℤ) : ℚ) 360) < 360 := by
  rw [fsub_eq, fmul_eq, fdiv_eq, ffloor_eq]
  have h1 : ((⌊z / 360⌋ : ℤ) : ℚ) * 360 ≤ z :=
    (le_div_iff₀ (by norm_num : (0:ℚ) < 360)).mp (Int.floor_le (z / 360))
  have h2 : z < (((⌊z / 360⌋ : ℤ) : ℚ) + 1) * 360 :=
    (div_lt_iff₀ (by norm_num : (0:ℚ) < 360)).mp (Int.lt_floor_add_one (z / 360))
  constructor
  · linarith
  · linarith

theorem reduce360_eq_self {r : ℚ} (h0 : 0 ≤ r) (h1 : r < 360) :
    fsub r (fmul ((Rat.floor (fdiv r 360) : ℤ) : ℚ) 360) = r := by
  rw [fsub_eq, fmul_eq, fdiv_eq, ffloor_eq]
  have hz : ⌊r / 360⌋ = 0 := by
    rw [Int.floor_eq_zero_iff]
    constructor
    · positivity
    · rw [div_lt_one (by norm_num)]
      linarith
  rw [hz]
  push_cast
  ring

theorem xformPen_copy_eq (cosd sind : ℚ → ℚ) (s : XFormPen)
    (h1 : 0 ≤ s.rotDegrees) (h2 : s.rotDegrees < 360) (h3 : 0 ≤ s.scaleFactor)
    (h4 : s.xx = fmul (cosd s.rotDegrees) s.scaleFactor)
    (h5 : s.xy = fmul (sind s.rotDegrees) s.scaleFactor)
    (h6 : s.flipYinFac = 1) :
    XFormPen.copy cosd sind s = s := by
  obtain ⟨rot, sfac, flip, xx, xy, tx, ty⟩ := s
  dsimp only at h1 h2 h3 h4 h5 h6
  subst h6
  subst h4
  subst h5
  have hflip : decide ((1:ℚ) < 0) = false := by norm_num
  unfold XFormPen.copy
  dsimp only
  rw [hflip]
  have ht : XFormPen.translate XFormPen.init tx ty =
      ⟨0, 1, 1, 1, 0, tx, ty⟩ := by
    unfold XFormPen.translate XFormPen.transformPoint XFormPen.init
    simp only [fadd_eq, fsub_eq, fmul_eq]
    norm_num
  rw [ht]
  have hu1 : (XFormPen.rotate cosd sind ⟨0, 1, 1, 1, 0, tx, ty⟩ rot).rotDegrees = rot := by
    show fsub (fadd 0 (fmul rot 1))
        (fmul ((Rat.floor (fdiv (fadd 0 (fmul rot 1)) 360) : ℤ) : ℚ) 360) = rot
    have e : fadd 0 (fmul rot 1) = rot := by
      rw [fadd_eq, fmul_eq]
      ring
    rw [e]
    exact reduce360_eq_self h1 h2
  have hs : XFormPen.scale cosd sind (XFormPen.rotate cosd sind ⟨0, 1, 1, 1, 0, tx, ty⟩ rot)
      sfac false =
      { XFormPen.rotate cosd sind ⟨0, 1, 1, 1, 0, tx, ty⟩ rot with
        scaleFactor := fmul 1 sfac,
        xx := fmul (cosd ((XFormPen.rotate cosd sind ⟨0, 1, 1, 1, 0, tx, ty⟩ rot).rotDegrees))
          (fmul 1 sfac),
        xy := fmul (sind ((XFormPen.rotate cosd sind ⟨0, 1, 1, 1, 0, tx, ty⟩ rot).rotDegrees))
          (fmul 1 sfac) } := by
    unfold XFormPen.scale
    rw [if_neg (not_lt.mpr h3)]
    rfl
  rw [hs]
  have e1 : fmul 1 sfac = sfac := by
    rw [fmul_eq]
    ring
  refine XFormPen.ext ?_ ?_ ?_ ?_ ?_ ?_ ?_
  all_goals try simp only [hu1, e1]
  all_goals rfl

theorem xformPen_translate_init (a b : ℚ) :
    XFormPen.translate XFormPen.init a b = ⟨0, 1, 1, 1, 0, a, b⟩ := by
  unfold XFormPen.translate XFormPen.transformPoint XFormPen.init
  simp only [fadd_eq, fsub_eq, fmul_eq]
  norm_num

theorem xformPen_rotate_rotDegrees (cosd sind : ℚ → ℚ) (s : XFormPen) (deg : ℚ) :
    (XFormPen.rotate cosd sind s deg).rotDegrees =
      fsub (fadd s.rotDegrees (fmul deg s.flipYinFac))
        (fmul ((Rat.floor (fdiv (fadd s.rotDegrees (fmul deg s.flipYinFac)) 360) : ℤ) : ℚ)
          360) := rfl

theorem xformPen_scale_eq_neg (cosd sind : ℚ → ℚ) (s : XFormPen) (fac : ℚ) (h : fac < 0) :
    XFormPen.scale cosd sind s fac false =
      { XFormPen.rotate cosd sind s 180 with
        scaleFactor := fmul s.scaleFactor (fneg fac),
        xx := fmul (cosd (XFormPen.rotate cosd sind s 180).rotDegrees)
          (fmul s.scaleFactor (fneg fac)),
        xy := fmul (sind (XFormPen.rotate cosd sind s 180).rotDegrees)
          (fmul s.scaleFactor (fneg fac)) } := by
  unfold XFormPen.scale
  rw [if_pos h]
  rfl

theorem xformPen_scale_eq_nonneg (cosd sind : ℚ → ℚ) (s : XFormPen) (fac : ℚ)
    (h : ¬fac < 0) :
    XFormPen.scale cosd sind s fac false =
      { s with
        scaleFactor := fmul s.scaleFactor fac,
        xx := fmul (cosd s.rotDegrees) (fmul s.scaleFactor fac),
        xy := fmul (sind s.rotDegrees) (fmul s.scaleFactor fac) } := by
  unfold XFormPen.scale
  rw [if_neg h]
  rfl

/-- Claim C9: for a pen built by `translate(a,b).rotate(θ).scale(s)`, the pen
returned by `copy()` maps every point to the same coordinates as the original
composed transform — exactly, in the exact-rational model, hence in particular
to within `1e-12`. -/
theorem xformPen_affine_roundtrip (cosd sind : ℚ → ℚ) (a b theta sf x y : ℚ) :
    (XFormPen.copy cosd sind
        (XFormPen.scale cosd sind
          (XFormPen.rotate cosd sind (XFormPen.translate XFormPen.init a b) theta)
          sf false)).transformPoint x y =
      (XFormPen.scale cosd sind
        (XFormPen.rotate cosd sind (XFormPen.translate XFormPen.init a b) theta)
        sf false).transformPoint x y ∧
    |((XFormPen.copy cosd sind
        (XFormPen.scale cosd sind
          (XFormPen.rotate cosd sind (XFormPen.translate XFormPen.init a b) theta)
          sf false)).transformPoint x y).1 -
      ((XFormPen.scale cosd sind
        (XFormPen.rotate cosd sind (XFormPen.translate XFormPen.init a b) theta)
        sf false).transformPoint x y).1| ≤ 1 / 1000000000000 ∧
    |((XFormPen.copy cosd sind
        (XFormPen.scale cosd sind
          (XFormPen.rotate cosd sind (XFormPen.translate XFormPen.init a b) theta)
          sf false)).transformPoint x y).2 -
      ((XFormPen.scale cosd sind
        (XFormPen.rotate cosd sind (XFormPen.translate XFormPen.init a b) theta)
        sf false).transformPoint x y).2| ≤ 1 / 1000000000000 := by
  rw [xformPen_translate_init]
  have hcopy : XFormPen.copy cosd sind
      (XFormPen.scale cosd sind
        (XFormPen.rotate cosd sind ⟨0, 1, 1, 1, 0, a, b⟩ theta) sf false) =
      XFormPen.scale cosd sind
        (XFormPen.rotate cosd sind ⟨0, 1, 1, 1, 0, a, b⟩ theta) sf false := by
    have hub : 0 ≤ (XFormPen.rotate cosd sind ⟨0, 1, 1, 1, 0, a, b⟩ theta).rotDegrees ∧
        (XFormPen.rotate cosd sind ⟨0, 1, 1, 1, 0, a, b⟩ theta).rotDegrees < 360 := by
      rw [xformPen_rotate_rotDegrees]
      exact reduce360_bounds _
    by_cases hneg : sf < 0
    · rw [xformPen_scale_eq_neg cosd sind _ sf hneg]
      refine xformPen_copy_eq cosd sind _ ?_ ?_ ?_ rfl rfl rfl
      · show 0 ≤ (XFormPen.rotate cosd sind _ 180).rotDegrees
        rw [xformPen_rotate_rotDegrees]
        exact (reduce360_bounds _).1
      · show (XFormPen.rotate cosd sind _ 180).rotDegrees < 360
        rw [xformPen_rotate_rotDegrees]
        exact (reduce360_bounds _).2
      · show (0:ℚ) ≤ fmul 1 (fneg sf)
        rw [fmul_eq, fneg_eq]
        linarith
    · rw [xformPen_scale_eq_nonneg cosd sind _ sf hneg]
      refine xformPen_copy_eq cosd sind _ ?_ ?_ ?_ rfl rfl rfl
      · exact hub.1
      · exact hub.2
      · show (0:ℚ) ≤ fmul 1 sf
        rw [fmul_eq]
        push_neg at hneg
        linarith
  rw [hcopy]
  refine ⟨rfl, ?_, ?_⟩ <;>
    · rw [sub_self, abs_zero]
      norm_num

/-! ### rack.ts: makeRack -/

/-- A pen operation, from the `Pen` interface of types.ts.  A path sent to a
pen is modelled as the list of operations the pen receives. -/
inductive PenOp where
  | moveTo (x y : ℚ)
  | arcTo (x y turn : ℚ)
deriving DecidableEq

/-- Embedding of `RackProps` from rack.ts. -/
structure RackProps where
  contactRatio : ℚ
  pressureAngle : ℚ
  profileShift : ℚ
  balancePercent : ℚ
  balanceAbsPercent : ℚ
  topClrPercent : ℚ
  botClrPercent : ℚ

/-- Embedding of `makeRack` from rack.ts, as the list of pen operations the
returned path function emits.  `piQ` models `Math.PI`, and `sinPA`, `cosPA`
model `Math.sin`/`Math.cos` of the pressure angle converted to radians. -/
def makeRack (piQ sinPA cosPA : ℚ) (props : RackProps) (doMove : Bool) : List PenOp :=
  let tanPA := fdiv sinPA cosPA
  let ah := fmul (fmul props.contactRatio sinPA) cosPA
  let cy := fdiv props.profileShift (fmul 100 piQ)
  let miny := fsub cy (fdiv ah 2)
  let maxy := fadd cy (fdiv ah 2)
  let bkw := fdiv props.balanceAbsPercent (fmul 200 piQ)
  let freew := fsub (mkRat 1 2) (fmul ah tanPA)
  let cx := fsub (fneg (mkRat 1 4)) (fdiv (fmul freew (fsub props.balancePercent 50)) 100)
  let maxy := fadd maxy (fdiv props.topClrPercent (fmul 100 piQ))
  let miny := fsub miny (fdiv props.botClrPercent (fmul 100 piQ))
  let topx := fadd (fmul (fsub maxy cy) tanPA) cx
  let botx := fadd (fmul (fsub miny cy) tanPA) cx
  (if doMove then [PenOp.moveTo (fadd (fsub (fneg 1) botx) bkw) miny] else []) ++
    [PenOp.arcTo (fsub botx bkw) miny 0,
     PenOp.arcTo (fsub topx bkw) maxy 0,
     PenOp.arcTo (fadd (fneg topx) bkw) maxy 0,
     PenOp.arcTo (fadd (fneg botx) bkw) miny 0]

/-- Claim C8: the rack path emitted with the initial `moveTo` begins and ends
at the same y-coordinate, and x advances by exactly 1 module unit from the
first point to the last point of the pitch. -/
theorem makeRack_closure (piQ sinPA cosPA : ℚ) (props : RackProps) :
    ∃ x0 y0 x1 y1,
      (makeRack piQ sinPA cosPA props true).head? = some (PenOp.moveTo x0 y0) ∧
      (makeRack piQ sinPA cosPA props true).getLast? = some (PenOp.arcTo x1 y1 0) ∧
      y1 = y0 ∧ x1 - x0 = 1 := by
  unfold makeRack
  refine ⟨_, _, _, _, rfl, rfl, rfl, ?_⟩
  simp only [fadd_eq, fsub_eq, fneg_eq]
  ring

/-! ### rack.ts: GearCutter

The `CutCurve` interface of types.ts, restricted to the capabilities the
normalizer consumes (`drawSegment` only re-emits output and is not needed by
any claim). -/

structure CutCurve where
  getR : ℚ → ℚ
  getDiscontinuityThetas : ℚ → ℚ → List ℚ

instance : Inhabited CutCurve := ⟨⟨fun _ => 0, fun _ _ => []⟩⟩

/-- A `PolarCutSegment` from types.ts:
`[starting angle, ending angle (greater), curve, rotation]`, angles in teeth. -/
structure Seg where
  sa : ℚ
  ea : ℚ
  curve : CutCurve
  rot : ℚ

instance : Inhabited Seg := ⟨⟨0, 0, default, 0⟩⟩

/-- Abstract result of constructing a `CircleCut`: its `CutCurve` capabilities
together with `getThetaForT`, which `GearCutter.arcTo` consults.  The actual
`CircleCut` computations involve `atan2`/`sqrt` and are abstracted behind
this interface. -/
structure CircleCutModel where
  curve : CutCurve
  getThetaForT : ℚ → ℚ

/-- Geometric context for the `GearCutter` embedding: `Math.PI` and the two
curve constructors, abstracted.  No constructor throws in the source, so they
are modelled as total functions. -/
structure GeomCtx where
  piQ : ℚ
  mkCircleCut : ℚ → ℚ → ℚ → ℚ → ℚ → ℚ → ℚ → CircleCutModel
  mkConstantRadiusCut : ℚ → CutCurve

/-- State of a `GearCutter` (rack.ts). -/
structure GearCutter where
  lastX : Option ℚ
  lastY : Option ℚ
  lastPointIsCut : Bool
  pointCurves : List (ℚ × CutCurve)
  flatCurves : List (ℚ × CutCurve)
  path : List Seg
  nTeeth : ℚ
  pitchRadius : ℚ
  dydTooth : ℚ
  dadTooth : ℚ
  faceTol : ℚ
  filletTol : ℚ

/-- Embedding of the `GearCutter` constructor. -/
def GearCutter.mk' (ctx : GeomCtx) (nTeeth pitchRadius faceTol filletTol : ℚ) : GearCutter :=
  let dadTooth := fdiv (fmul ctx.piQ 2) nTeeth
  { lastX := none, lastY := none, lastPointIsCut := false,
    pointCurves := [], flatCurves := [], path := [],
    nTeeth := nTeeth, pitchRadius := pitchRadius,
    dydTooth := fmul dadTooth pitchRadius, dadTooth := dadTooth,
    faceTol := faceTol, filletTol := filletTol }

/-- Association-list lookup, modelling `Map.get`. -/
def alookup (k : ℚ) : List (ℚ × CutCurve) → Option CutCurve
  | [] => none
  | (k2, v) :: rest => if k2 = k then some v else alookup k rest

/-- Embedding of `GearCutter.cutPoint`. -/
def GearCutter.cutPoint (ctx : GeomCtx) (st : GearCutter) (x y : ℚ) : GearCutter :=
  let found := alookup x st.pointCurves
  let curve := match found with
    | some c => c
    | none =>
      (ctx.mkCircleCut (fneg ctx.piQ) x (fneg (fmul ctx.piQ st.pitchRadius))
        ctx.piQ x (fmul ctx.piQ st.pitchRadius) st.filletTol).curve
  let st := match found with
    | some _ => st
    | none => { st with pointCurves := st.pointCurves ++ [(x, curve)] }
  let rot := fdiv y st.dydTooth
  { st with path := st.path ++
      [⟨fsub rot (fdiv ctx.piQ st.dadTooth), fadd rot (fdiv ctx.piQ st.dadTooth), curve, rot⟩] }

/-- Embedding of `GearCutter.cutFlat`. -/
def GearCutter.cutFlat (ctx : GeomCtx) (st : GearCutter) (x y0 y1 : ℚ) : GearCutter :=
  let found := alookup x st.flatCurves
  let curve := match found with
    | some c => c
    | none => ctx.mkConstantRadiusCut x
  let st := match found with
    | some _ => st
    | none => { st with flatCurves := st.flatCurves ++ [(x, curve)] }
  if y0 < y1 then
    { st with path := st.path ++ [⟨fdiv y0 st.dydTooth, fdiv y1 st.dydTooth, curve, 0⟩] }
  else
    { st with path := st.path ++ [⟨fdiv y1 st.dydTooth, fdiv y0 st.dydTooth, curve, 0⟩] }

/-- Embedding of `GearCutter.moveTo`; a throw is modelled as `Except.error`. -/
def GearCutter.moveTo (st : GearCutter) (x y : ℚ) : Except String GearCutter :=
  if x ≤ 0 then Except.error "x <= 0 is not supported in GearCutter"
  else Except.ok { st with lastX := some x, lastY := some y, lastPointIsCut := false }

/-- Embedding of `GearCutter.arcTo`; throws are modelled as `Except.error`,
in the source's checking order. -/
def GearCutter.arcTo (ctx : GeomCtx) (st : GearCutter) (x y turn : ℚ) :
    Except String GearCutter :=
  if x ≤ 0 then Except.error "x <= 0 is not supported in GearCutter"
  else if mkRat 1 1000 < fabs turn then
    Except.error "Curved cutter paths are not supported in GearCutter"
  else
    match st.lastX, st.lastY with
    | some x0, some y0 =>
      let st1 := { st with lastX := some x, lastY := some y }
      let st2 := if st1.lastPointIsCut then st1 else st1.cutPoint ctx x0 y0
      let st3 := { st2 with lastPointIsCut := true }
      if x0 = x ∧ y0 = y then Except.ok st3
      else
        let st4 := st3.cutPoint ctx x y
        if x0 = x then Except.ok (st4.cutFlat ctx x y0 y)
        else
          let xp := st4.pitchRadius
          let y0p := fadd (fdiv (fmul (fsub y y0) (fsub xp x0)) (fsub x x0)) y0
          let tp := fneg (fdiv y0p st4.dydTooth)
          let dirx := fsub y0 y
          let diry := fsub x x0
          let k := fdiv (fmul st4.dydTooth diry) (fadd (fmul dirx dirx) (fmul diry diry))
          let dxdt := fmul k dirx
          let dydt := fmul k diry
          let t0 := fdiv (fsub x0 xp) dxdt
          let t1 := fdiv (fsub x xp) dxdt
          let cc := ctx.mkCircleCut (fmul (fadd t0 tp) st4.dadTooth) x0 (fmul t0 dydt)
            (fmul (fadd t1 tp) st4.dadTooth) x (fmul t1 dydt) st4.faceTol
          let thetaA := fdiv (cc.getThetaForT 0) st4.dadTooth
          let thetaB := fdiv (cc.getThetaForT 1) st4.dadTooth
          Except.ok { st4 with path := st4.path ++
            [⟨min thetaA thetaB, max thetaA thetaB, cc.curve, 0⟩] }
    | _, _ => Except.error "Curve without current point sent to GearCutter"

/-- Claim C7: `moveTo` throws exactly when `x ≤ 0`; `arcTo` throws exactly
when `x ≤ 0`, or the turn magnitude exceeds 0.001 rad, or there is no
current point; on all other inputs the calls succeed.  In the `Except`
model an error propagates immediately with no recovery. -/
theorem gearCutter_domain_errors (ctx : GeomCtx) (st : GearCutter) (x y turn : ℚ) :
    ((∃ e, GearCutter.moveTo st x y = Except.error e) ↔ x ≤ 0) ∧
    ((∃ e, GearCutter.arcTo ctx st x y turn = Except.error e) ↔
      (x ≤ 0 ∨ 1/1000 < |turn| ∨ st.lastX = none ∨ st.lastY = none)) := by
  have habs : (mkRat 1 1000 < fabs turn) ↔ 1/1000 < |turn| := by
    rw [fabs_eq, Rat.mkRat_eq_div]
    norm_num
  constructor
  · unfold GearCutter.moveTo
    by_cases hx : x ≤ 0
    · rw [if_pos hx]
      exact ⟨fun _ => hx, fun _ => ⟨_, rfl⟩⟩
    · rw [if_neg hx]
      exact ⟨fun ⟨e, he⟩ => absurd he (by simp), fun h => absurd h hx⟩
  · unfold GearCutter.arcTo
    by_cases hx : x ≤ 0
    · rw [if_pos hx]
      exact ⟨fun _ => Or.inl hx, fun _ => ⟨_, rfl⟩⟩
    · rw [if_neg hx]
      by_cases ht : mkRat 1 1000 < fabs turn
      · rw [if_pos ht]
        exact ⟨fun _ => Or.inr (Or.inl (habs.mp ht)), fun _ => ⟨_, rfl⟩⟩
      · rw [if_neg ht]
        match hlx : st.lastX, hly : st.lastY with
        | some x0, some y0 =>
          constructor
          · rintro ⟨e, he⟩
            dsimp only at he
            by_cases heq : x0 = x ∧ y0 = y
            · rw [if_pos heq] at he
              exact absurd he (by simp)
            · rw [if_neg heq] at he
              by_cases hvert : x0 = x
              · rw [if_pos hvert] at he
                exact absurd he (by simp)
              · rw [if_neg hvert] at he
                exact absurd he (by simp)
          · rintro (h | h | h | h)
            · exact absurd h hx
            · exact absurd h (fun hb => ht (habs.mpr hb))
            · exact absurd h (by simp)
            · exact absurd h (by simp)
        | some x0, none =>
          exact ⟨fun _ => Or.inr (Or.inr (Or.inr rfl)), fun _ => ⟨_, rfl⟩⟩
        | none, some y0 =>
          exact ⟨fun _ => Or.inr (Or.inr (Or.inl rfl)), fun _ => ⟨_, rfl⟩⟩
        | none, none =>
          exact ⟨fun _ => Or.inr (Or.inr (Or.inl rfl)), fun _ => ⟨_, rfl⟩⟩

/-! ### biarc.ts -/

/-- A point-and-tangent sample `[x, y, tx, ty]` from biarc.ts. -/
structure PointAndTangent where
  x : ℚ
  y : ℚ
  tx : ℚ
  ty : ℚ
deriving DecidableEq

instance : Inhabited PointAndTangent := ⟨⟨0, 0, 0, 0⟩⟩

/-- Model of `Math.max` on doubles. -/
def fmax (a b : ℚ) : ℚ := if a < b then b else a

theorem fmax_eq (a b : ℚ) : fmax a b = max a b := by
  unfold fmax
  rcases lt_or_le a b with h | h
  · rw [if_pos h, max_eq_right (le_of_lt h)]
  · rw [if_neg (not_lt.mpr h), max_eq_left h]

/-- Embedding of `biArcSplit` from biarc.ts: connection point and tangent of
the incenter-connecting biarc.  `Math.sqrt` is abstracted as `sqrtf`. -/
def biArcSplit (sqrtf : ℚ → ℚ) (pt0 pt1 : PointAndTangent) : PointAndTangent :=
  let dx := fsub pt1.x pt0.x
  let dy := fsub pt1.y pt0.y
  let dmag := sqrtf (fadd (fmul dx dx) (fmul dy dy))
  let txm := fdiv dx dmag
  let tym := fdiv dy dmag
  let f0 := fsub (fmul pt1.ty dx) (fmul pt1.tx dy)
  let f1 := fsub (fmul pt0.tx dy) (fmul pt0.ty dx)
  let k := fdiv dmag
    (fadd (fmul (fadd (fadd (fmul pt0.tx txm) (fmul pt0.ty tym)) 1) f0)
      (fmul (fadd (fadd (fmul pt1.tx txm) (fmul pt1.ty tym)) 1) f1))
  let a0 := fmul k f0
  ⟨fadd pt0.x (fmul (fadd pt0.tx txm) a0), fadd pt0.y (fmul (fadd pt0.ty tym) a0), txm, tym⟩

/-- Embedding of the private `getArcPointError` from biarc.ts. -/
def getArcPointError (sqrtf : ℚ → ℚ) (pt0 pt1 sample : PointAndTangent) : ℚ :=
  let dxa := fsub pt1.x pt0.x
  let dya := fsub pt1.y pt0.y
  let den := fadd (fmul dxa (fsub pt1.ty pt0.ty)) (fmul dya (fsub pt0.tx pt1.tx))
  let da2 := fadd (fmul dxa dxa) (fmul dya dya)
  if fmul (fabs den) 100000000 < da2 then
    let xh := fmul (fadd pt0.x pt1.x) (mkRat 1 2)
    let yh := fmul (fadd pt0.y pt1.y) (mkRat 1 2)
    fmul (fabs (fsub (fmul (fsub sample.x xh) (fadd pt0.ty pt1.ty))
      (fmul (fsub sample.y yh) (fadd pt0.tx pt1.tx)))) (mkRat 1 2)
  else
    let r := fdiv da2 den
    let xc := fmul (fsub (fadd pt0.x pt1.x) (fmul r (fadd pt0.ty pt1.ty))) (mkRat 1 2)
    let yc := fmul (fadd (fadd pt0.y pt1.y) (fmul r (fadd pt0.tx pt1.tx))) (mkRat 1 2)
    let xcs := fsub sample.x xc
    let ycs := fsub sample.y yc
    let rs := sqrtf (fadd (fmul xcs xcs) (fmul ycs ycs))
    fabs (fsub rs (fabs r))

/-- Embedding of `getBiArcPointError` from biarc.ts. -/
def getBiArcPointError (sqrtf : ℚ → ℚ) (pt0 ptm pt1 sample : PointAndTangent) : ℚ :=
  let dx := fsub pt1.x pt0.x
  let dy := fsub pt1.y pt0.y
  if fadd (fmul (fsub ptm.x pt0.x) dx) (fmul (fsub ptm.y pt0.y) dy) <
      fadd (fmul (fsub sample.x pt0.x) dx) (fmul (fsub sample.y pt0.y) dy) then
    getArcPointError sqrtf ptm pt1 sample
  else
    getArcPointError sqrtf pt0 ptm sample

/-- Embedding of the private `getApproxError` from biarc.ts: the maximum
`getBiArcPointError` over the interior samples between `fromPos` and `toPos`. -/
def getApproxError (sqrtf : ℚ → ℚ) (samples : List PointAndTangent)
    (fromPos toPos : Nat) : ℚ :=
  let pt0 := samples.getD fromPos default
  let pt1 := samples.getD toPos default
  let ptm := biArcSplit sqrtf pt0 pt1
  (List.range' (fromPos + 1) (toPos - (fromPos + 1))).foldl
    (fun m i => fmax m (getBiArcPointError sqrtf pt0 ptm pt1 (samples.getD i default))) 0

/-- One entry of the dynamic-programming table of `biArcApproximate`:
`[best division count, best division max error, best division predecessor]`. -/
structure BestEntry where
  count : Nat
  maxError : ℚ
  pred : Int
deriving DecidableEq

instance : Inhabited BestEntry := ⟨⟨0, 0, -1⟩⟩

/-- State of the inner scan of `biArcApproximate`:
`(nextScanStart, bestCount, bestMaxError, bestPred)`. -/
structure ScanState where
  nss : Nat
  bestCount : Nat
  bestMaxError : ℚ
  bestPred : Int
deriving DecidableEq

/-- Embedding of the inner `testPos` scan of `biArcApproximate`, including its
two early `break`s.  `fuel` bounds the iteration count (any value at least
`pos - 1 - testPos` gives the source behavior). -/
def scanLoop (sqrtf : ℚ → ℚ) (samples : List PointAndTangent) (tolerance : ℚ)
    (best : List BestEntry) (pos : Nat) : Nat → Nat → ScanState → ScanState
  | 0, _, st => st
  | fuel + 1, testPos, st =>
    if testPos < pos - 1 then
      let error := getApproxError sqrtf samples testPos pos
      if tolerance < error then scanLoop sqrtf samples tolerance best pos fuel (testPos + 1) st
      else
        let st := if testPos < st.nss then { st with nss := testPos } else st
        let count := (best.getD testPos default).count + 1
        let maxError := fmax (best.getD testPos default).maxError error
        if st.bestCount < count then st
        else
          let st :=
            if count < st.bestCount ∨ maxError < st.bestMaxError then
              { st with bestCount := count, bestMaxError := maxError,
                        bestPred := (testPos : Int) }
            else st
          if error < maxError then st
          else scanLoop sqrtf samples tolerance best pos fuel (testPos + 1) st
    else st

/-- Embedding of the outer `pos` loop of `biArcApproximate`, carrying the
table and `nextScanStart`. -/
def bestLoop (sqrtf : ℚ → ℚ) (samples : List PointAndTangent) (tolerance : ℚ) :
    Nat → List BestEntry → Nat → List BestEntry × Nat
  | 0, best, nextScanStart => (best, nextScanStart)
  | fuel + 1, best, nextScanStart =>
    let pos := best.length
    if pos < samples.length then
      let thisScanStart := nextScanStart
      let init : ScanState :=
        ⟨pos - 1, (best.getD (pos - 1) default).count + 1,
          (best.getD (pos - 1) default).maxError, ((pos : Int) - 1)⟩
      let fin := scanLoop sqrtf samples tolerance best pos pos thisScanStart init
      bestLoop sqrtf samples tolerance fuel
        (best ++ [⟨fin.bestCount, fin.bestMaxError, fin.bestPred⟩]) fin.nss
    else (best, nextScanStart)

/-- The completed dynamic-programming table of `biArcApproximate`. -/
def bestTable (sqrtf : ℚ → ℚ) (samples : List PointAndTangent) (tolerance : ℚ) :
    List BestEntry :=
  (bestLoop sqrtf samples tolerance samples.length [⟨0, 0, -1⟩] 0).1

/-- The reconstruction walk of `biArcApproximate`
(`for i = best.length-1; i >= 0; i = best[i][2]`), collecting indices in
walk order (reverse path order). -/
def walkIdx (best : List BestEntry) : Int → Nat → List Int
  | _, 0 => []
  | i, fuel + 1 =>
    if 0 ≤ i then i :: walkIdx best (best.getD i.toNat default).pred fuel else []

/-- The selected sample indices of `biArcApproximate`, in path order. -/
def chosenIdx (sqrtf : ℚ → ℚ) (samples : List PointAndTangent) (tolerance : ℚ) :
    List Int :=
  let best := bestTable sqrtf samples tolerance
  (walkIdx best ((best.length : Int) - 1) (best.length + 1)).reverse

/-- Embedding of `biArcApproximate` from biarc.ts. -/
def biArcApproximate (sqrtf : ℚ → ℚ) (samples : List PointAndTangent)
    (tolerance : ℚ) : List PointAndTangent :=
  (chosenIdx sqrtf samples tolerance).map (fun i => samples.getD i.toNat default)

/-- Invariant of the DP predecessors: a recorded predecessor is either the
adjacent sample or a strictly earlier one whose biarc error is within
tolerance. -/
def GoodPred (sqrtf : ℚ → ℚ) (samples : List PointAndTangent) (tolerance : ℚ)
    (pos : Nat) (p : Int) : Prop :=
  p = (pos : Int) - 1 ∨
    (0 ≤ p ∧ p < (pos : Int) - 1 ∧ getApproxError sqrtf samples p.toNat pos ≤ tolerance)

theorem scanLoop_goodPred {sqrtf : ℚ → ℚ} {samples : List PointAndTangent}
    {tolerance : ℚ} {best : List BestEntry} {pos : Nat} :
    ∀ (fuel testPos : Nat) (st : ScanState),
      GoodPred sqrtf samples tolerance pos st.bestPred →
      GoodPred sqrtf samples tolerance pos
        (scanLoop sqrtf samples tolerance best pos fuel testPos st).bestPred := by
  intro fuel
  induction fuel with
  | zero => intro testPos st h; exact h
  | succ n ih =>
    intro testPos st h
    simp only [scanLoop]
    split
    · rename_i hlt
      split
      · exact ih (testPos + 1) st h
      · rename_i herr
        have hgood2 : GoodPred sqrtf samples tolerance pos (testPos : Int) := by
          refine Or.inr ⟨Int.ofNat_nonneg _, by omega, ?_⟩
          simpa using not_lt.mp herr
        repeat' split
        all_goals first
          | exact h
          | exact hgood2
          | exact ih _ _ h
          | exact ih _ _ hgood2
    · exact h

/-- Invariant of the whole DP table. -/
def TableGood (sqrtf : ℚ → ℚ) (samples : List PointAndTangent) (tolerance : ℚ)
    (best : List BestEntry) : Prop :=
  ∀ pos : Nat, pos < best.length →
    GoodPred sqrtf samples tolerance pos (best.getD pos default).pred

theorem getD_append_self (best : List BestEntry) (e : BestEntry) :
    (best ++ [e]).getD best.length default = e := by
  rw [List.getD_eq_getElem?_getD, List.getElem?_append_right (le_refl _)]
  simp

theorem bestLoop_good {sqrtf : ℚ → ℚ} {samples : List PointAndTangent} {tolerance : ℚ} :
    ∀ (fuel : Nat) (best : List BestEntry) (nss : Nat),
      TableGood sqrtf samples tolerance best →
      TableGood sqrtf samples tolerance (bestLoop sqrtf samples tolerance fuel best nss).1 := by
  intro fuel
  induction fuel with
  | zero => intro best nss h; exact h
  | succ n ih =>
    intro best nss h
    simp only [bestLoop]
    split
    · refine ih _ _ ?_
      intro pos hpos
      rw [List.length_append, List.length_singleton] at hpos
      rcases Nat.lt_or_ge pos best.length with hlt | hge
      · rw [List.getD_append _ _ _ _ hlt]
        exact h pos hlt
      · have hpe : pos = best.length := by omega
        subst hpe
        rw [getD_append_self]
        exact scanLoop_goodPred _ _ _ (Or.inl rfl)
    · exact h

theorem bestTable_good (sqrtf : ℚ → ℚ) (samples : List PointAndTangent) (tolerance : ℚ) :
    TableGood sqrtf samples tolerance (bestTable sqrtf samples tolerance) := by
  refine bestLoop_good _ _ _ ?_
  intro pos hpos
  simp only [List.length_singleton, Nat.lt_one_iff] at hpos
  subst hpos
  exact Or.inl (by decide)

theorem bestLoop_length {sqrtf : ℚ → ℚ} {samples : List PointAndTangent} {tolerance : ℚ} :
    ∀ (fuel : Nat) (best : List BestEntry) (nss : Nat),
      best.length ≤ samples.length → samples.length ≤ best.length + fuel →
      (bestLoop sqrtf samples tolerance fuel best nss).1.length = samples.length := by
  intro fuel
  induction fuel with
  | zero =>
    intro best nss h1 h2
    simp only [bestLoop]
    omega
  | succ n ih =>
    intro best nss h1 h2
    simp only [bestLoop]
    split
    · rename_i hlt
      refine ih _ _ ?_ ?_ <;>
        rw [List.length_append, List.length_singleton] <;> omega
    · rename_i hge
      show best.length = samples.length
      omega

theorem bestTable_length {sqrtf : ℚ → ℚ} {samples : List PointAndTangent} {tolerance : ℚ}
    (h : samples ≠ []) :
    (bestTable sqrtf samples tolerance).length = samples.length := by
  have hlen : 1 ≤ samples.length := List.length_pos.mpr h
  exact bestLoop_length _ _ _ (by simpa using hlen) (by simp)

theorem fmax_le_left (a b : ℚ) : a ≤ fmax a b := by
  unfold fmax
  split
  · exact le_of_lt (by assumption)
  · exact le_refl a

theorem fmax_le_right (a b : ℚ) : b ≤ fmax a b := by
  unfold fmax
  split
  · exact le_refl b
  · exact not_lt.mp (by assumption)

theorem foldl_fmax_le_init (f : Nat → ℚ) :
    ∀ (l : List Nat) (a : ℚ), a ≤ l.foldl (fun m i => fmax m (f i)) a := by
  intro l
  induction l with
  | nil => intro a; exact le_refl a
  | cons hd tl ih =>
    intro a
    exact le_trans (fmax_le_left a (f hd)) (ih (fmax a (f hd)))

theorem foldl_fmax_ge (f : Nat → ℚ) :
    ∀ (l : List Nat) (a : ℚ) (m : Nat), m ∈ l →
      f m ≤ l.foldl (fun acc i => fmax acc (f i)) a := by
  intro l
  induction l with
  | nil => intro a m hm; exact absurd hm (List.not_mem_nil m)
  | cons hd tl ih =>
    intro a m hm
    rcases List.mem_cons.mp hm with he | ht
    · subst he
      exact le_trans (fmax_le_right a (f m)) (foldl_fmax_le_init f tl _)
    · exact ih _ m ht

theorem getApproxError_ge (sqrtf : ℚ → ℚ) (samples : List PointAndTangent)
    (fromPos toPos m : Nat) (h1 : fromPos + 1 ≤ m) (h2 : m < toPos) :
    getBiArcPointError sqrtf (samples.getD fromPos default)
      (biArcSplit sqrtf (samples.getD fromPos default) (samples.getD toPos default))
      (samples.getD toPos default) (samples.getD m default) ≤
      getApproxError sqrtf samples fromPos toPos := by
  unfold getApproxError
  refine foldl_fmax_ge _ _ _ m ?_
  rw [List.mem_range'_1]
  omega

theorem walkIdx_nil_of_neg (best : List BestEntry) (p : Int) (fuel : Nat) (h : p < 0) :
    walkIdx best p fuel = [] := by
  cases fuel with
  | zero => rfl
  | succ n =>
    unfold walkIdx
    rw [if_neg (not_le.mpr h)]

theorem walkIdx_spec {sqrtf : ℚ → ℚ} {samples : List PointAndTangent} {tolerance : ℚ}
    {best : List BestEntry}
    (hg : TableGood sqrtf samples tolerance best) :
    ∀ (fuel : Nat) (i : Int), 0 ≤ i → i < (best.length : Int) → i.toNat < fuel →
      (walkIdx best i fuel).head? = some i ∧
      (walkIdx best i fuel).getLast? = some 0 ∧
      List.Chain'
        (fun a b => b = (best.getD a.toNat default).pred ∧ 0 ≤ b ∧ b < a ∧
          a < (best.length : Int))
        (walkIdx best i fuel) := by
  intro fuel
  induction fuel with
  | zero => intro i h0 hL hf; omega
  | succ n ih =>
    intro i h0 hL hf
    have hItoNat : ((i.toNat : Int)) = i := Int.toNat_of_nonneg h0
    have hgi := hg i.toNat (by omega)
    unfold walkIdx
    rw [if_pos h0]
    rcases eq_or_lt_of_le h0 with hzero | hpos
    · have hi0 : i = 0 := hzero.symm
      subst hi0
      have hpred : (best.getD (Int.toNat 0) default).pred < 0 := by
        rcases hgi with hp | hp
        · simp only [Int.toNat_zero] at hp ⊢
          omega
        · omega
      rw [walkIdx_nil_of_neg _ _ _ hpred]
      exact ⟨rfl, rfl, List.chain'_singleton _⟩
    · have hpb : 0 ≤ (best.getD i.toNat default).pred ∧
          (best.getD i.toNat default).pred < i := by
        rcases hgi with hp | hp
        · rw [hp]
          omega
        · refine ⟨hp.1, ?_⟩
          omega
      have hrec := ih (best.getD i.toNat default).pred hpb.1 (by omega) (by omega)
      rcases hw : walkIdx best (best.getD i.toNat default).pred n with _ | ⟨b, l⟩
      · rw [hw] at hrec
        simp at hrec
      · rw [hw] at hrec
        have hb : b = (best.getD i.toNat default).pred := by
          have := hrec.1
          simp only [List.head?_cons, Option.some_inj] at this
          exact this
        refine ⟨rfl, ?_, ?_⟩
        · rw [List.getLast?_cons_cons]
          exact hrec.2.1
        · rw [List.chain'_cons]
          exact ⟨⟨hb.symm ▸ rfl, hb ▸ hpb.1, hb ▸ hpb.2, hL⟩, hrec.2.2⟩

theorem bestLoop_length_ge {sqrtf : ℚ → ℚ} {samples : List PointAndTangent} {tolerance : ℚ} :
    ∀ (fuel : Nat) (best : List BestEntry) (nss : Nat),
      best.length ≤ (bestLoop sqrtf samples tolerance fuel best nss).1.length := by
  intro fuel
  induction fuel with
  | zero => intro best nss; exact le_refl _
  | succ n ih =>
    intro best nss
    simp only [bestLoop]
    split
    · refine le_trans ?_ (ih _ _)
      rw [List.length_append, List.length_singleton]
      omega
    · exact le_refl _

theorem bestTable_length_pos (sqrtf : ℚ → ℚ) (samples : List PointAndTangent)
    (tolerance : ℚ) : 1 ≤ (bestTable sqrtf samples tolerance).length := by
  unfold bestTable
  exact le_trans (by simp) (bestLoop_length_ge _ _ _)

/-- Claim C5: every sample that `biArcApproximate` does not select lies within
`tolerance` of the biarc spanned by the two selected samples that bracket it,
as measured by `getBiArcPointError`: along the selected index list, for every
consecutive selected pair `(p, i)` and every sample index `m` strictly between
them, the biarc point error is at most `tolerance`. -/
theorem biarc_deviation_bound (sqrtf : ℚ → ℚ) (samples : List PointAndTangent)
    (tolerance : ℚ) :
    List.Chain'
      (fun p i : Int => ∀ m : Nat, p < (m : Int) → (m : Int) < i →
        getBiArcPointError sqrtf (samples.getD p.toNat default)
          (biArcSplit sqrtf (samples.getD p.toNat default) (samples.getD i.toNat default))
          (samples.getD i.toNat default) (samples.getD m default) ≤ tolerance)
      (chosenIdx sqrtf samples tolerance) := by
  unfold chosenIdx
  rw [List.chain'_reverse]
  have hL := bestTable_length_pos sqrtf samples tolerance
  have hspec := walkIdx_spec (bestTable_good sqrtf samples tolerance)
    ((bestTable sqrtf samples tolerance).length + 1)
    (((bestTable sqrtf samples tolerance).length : Int) - 1)
    (by omega) (by omega) (by omega)
  refine List.Chain'.imp ?_ hspec.2.2
  intro a b hab
  obtain ⟨hpred, hb0, hba, haL⟩ := hab
  intro m hm1 hm2
  have ha0 : 0 ≤ a := le_of_lt (lt_of_le_of_lt hb0 hba)
  have hgood := bestTable_good sqrtf samples tolerance a.toNat (by omega)
  rcases hgood with hadj | ⟨hp0, hplt, herr⟩
  · rw [hpred, hadj] at hm1
    omega
  · rw [← hpred] at herr
    refine le_trans (getApproxError_ge sqrtf samples b.toNat a.toNat m ?_ ?_) ?_
    · omega
    · omega
    · exact herr

/-- Claim C4 (amended): `biArcApproximate` returns the subsequence of samples
along a strictly increasing index list that starts at sample 0 and ends at the
last sample, in which every consecutive chosen pair is either adjacent or has
biarc approximation error within `tolerance`.  (Global minimum cardinality
does **not** hold; see the counterexample.) -/
theorem biArcApproximate_structure (sqrtf : ℚ → ℚ) (samples : List PointAndTangent)
    (tolerance : ℚ) (h : samples ≠ []) :
    (chosenIdx sqrtf samples tolerance).head? = some 0 ∧
    (chosenIdx sqrtf samples tolerance).getLast? = some ((samples.length : Int) - 1) ∧
    List.Chain'
      (fun p i : Int => 0 ≤ p ∧ p < i ∧ i < (samples.length : Int) ∧
        (i = p + 1 ∨ getApproxError sqrtf samples p.toNat i.toNat ≤ tolerance))
      (chosenIdx sqrtf samples tolerance) ∧
    biArcApproximate sqrtf samples tolerance =
      (chosenIdx sqrtf samples tolerance).map (fun i => samples.getD i.toNat default) := by
  have hlen := @bestTable_length sqrtf _ tolerance h
  have hL := bestTable_length_pos sqrtf samples tolerance
  have hspec := walkIdx_spec (bestTable_good sqrtf samples tolerance)
    ((bestTable sqrtf samples tolerance).length + 1)
    (((bestTable sqrtf samples tolerance).length : Int) - 1)
    (by omega) (by omega) (by omega)
  refine ⟨?_, ?_, ?_, rfl⟩
  · unfold chosenIdx
    rw [List.head?_reverse]
    exact hspec.2.1
  · unfold chosenIdx
    rw [List.getLast?_reverse]
    rw [hspec.1, hlen]
  · unfold chosenIdx
    rw [List.chain'_reverse]
    refine List.Chain'.imp ?_ hspec.2.2
    intro a b hab
    obtain ⟨hpred, hb0, hba, haL⟩ := hab
    have ha0 : 0 ≤ a := le_of_lt (lt_of_le_of_lt hb0 hba)
    have hgood := bestTable_good sqrtf samples tolerance a.toNat (by omega)
    refine ⟨hb0, hba, by omega, ?_⟩
    rcases hgood with hadj | ⟨hp0, hplt, herr⟩
    · refine Or.inl ?_
      rw [hpred, hadj]
      omega
    · refine Or.inr ?_
      rw [← hpred] at herr
      exact herr

/-- Witness for `biArcApproximate_structure` at a concrete input. -/
theorem biArcApproximate_structure_witness :
    (chosenIdx (fun _ => 0) [⟨0, 0, 1, 0⟩, ⟨1, 0, 1, 0⟩] 1).head? = some 0 ∧
    (chosenIdx (fun _ => 0) [⟨0, 0, 1, 0⟩, ⟨1, 0, 1, 0⟩] 1).getLast? =
      some (((2 : Nat) : Int) - 1) ∧
    List.Chain'
      (fun p i : Int => 0 ≤ p ∧ p < i ∧ i < ((2 : Nat) : Int) ∧
        (i = p + 1 ∨ getApproxError (fun _ => 0) [⟨0, 0, 1, 0⟩, ⟨1, 0, 1, 0⟩] p.toNat i.toNat ≤ 1))
      (chosenIdx (fun _ => 0) [⟨0, 0, 1, 0⟩, ⟨1, 0, 1, 0⟩] 1) ∧
    biArcApproximate (fun _ => 0) [⟨0, 0, 1, 0⟩, ⟨1, 0, 1, 0⟩] 1 =
      (chosenIdx (fun _ => 0) [⟨0, 0, 1, 0⟩, ⟨1, 0, 1, 0⟩] 1).map
        (fun i => [(⟨0, 0, 1, 0⟩ : PointAndTangent), ⟨1, 0, 1, 0⟩].getD i.toNat default) :=
  biArcApproximate_structure (fun _ => 0) [⟨0, 0, 1, 0⟩, ⟨1, 0, 1, 0⟩] 1 (by decide)

/-- Concrete square root used by the C4 counterexample.  All chords between
the counterexample samples are horizontal (`dy = 0`) with integer lengths, and
every `getArcPointError` evaluation takes the near-straight fallback branch,
so the only `Math.sqrt` arguments that occur are the perfect squares
1, 4, 9, 16, on which this function agrees with the real square root. -/
def c4sqrt (q : ℚ) : ℚ :=
  if q = 1 then 1 else if q = 4 then 2 else if q = 9 then 3 else if q = 16 then 4 else 0

/-- Counterexample samples for claim C4: five collinear points with rational
unit tangents of tiny, distinct slopes. -/
def c4s0 : PointAndTangent :=
  ⟨0, 0, mkRat 3999999999999999999999919 4000000000000000000000081,
    mkRat (-36000000000000) 4000000000000000000000081⟩

def c4s1 : PointAndTangent :=
  ⟨1, 0, mkRat 24999999999999999999999471 25000000000000000000000529,
    mkRat (-230000000000000) 25000000000000000000000529⟩

def c4s2 : PointAndTangent :=
  ⟨2, 0, mkRat 390624999999999999999991 390625000000000000000009,
    mkRat 3750000000000 390625000000000000000009⟩

def c4s3 : PointAndTangent :=
  ⟨3, 0, mkRat 24999999999999999999999999 25000000000000000000000001,
    mkRat 10000000000000 25000000000000000000000001⟩

def c4s4 : PointAndTangent :=
  ⟨4, 0, mkRat 99999999999999999999999999 100000000000000000000000001,
    mkRat (-20000000000000) 100000000000000000000000001⟩

def c4samples : List PointAndTangent := [c4s0, c4s1, c4s2, c4s3, c4s4]

def c4tol : ℚ := mkRat 1 2500000000000

/-- Counterexample to claim C4 as stated: `biArcApproximate` returns the
three samples `s0, s1, s4` (two biarcs), yet the two-element subsequence
`s0, s4` already satisfies the deviation requirement — every interior sample
is within tolerance of the single biarc from `s0` to `s4` — so the returned
subsequence does not have minimum cardinality.  (The scan-window pruning
skips predecessor 0 at positions 3 and 4 because `(0,2)` was infeasible.) -/
theorem biArcApproximate_minimality_cex :
    biArcApproximate c4sqrt c4samples c4tol = [c4s0, c4s1, c4s4] ∧
    getBiArcPointError c4sqrt c4s0 (biArcSplit c4sqrt c4s0 c4s4) c4s4 c4s1 ≤ c4tol ∧
    getBiArcPointError c4sqrt c4s0 (biArcSplit c4sqrt c4s0 c4s4) c4s4 c4s2 ≤ c4tol ∧
    getBiArcPointError c4sqrt c4s0 (biArcSplit c4sqrt c4s0 c4s4) c4s4 c4s3 ≤ c4tol ∧
    [c4s0, c4s4].length < (biArcApproximate c4sqrt c4samples c4tol).length := by
  exact ⟨by decide, by decide, by decide, by decide, by decide⟩

/-! ### pq.ts: binary min-heap

The heap is embedded as a list of `(priority, store index)` pairs; in the
source the elements are the segment tuples themselves and the priority is the
tuple's first field (the start angle), which never changes while a segment is
in the queue. -/

/-- Model of `Math.min`. -/
def fmin (a b : ℚ) : ℚ := if a ≤ b then a else b

theorem fmin_eq (a b : ℚ) : fmin a b = min a b := by
  unfold fmin
  rcases le_or_lt a b with h | h
  · rw [if_pos h, min_eq_left h]
  · rw [if_neg (not_le.mpr h), min_eq_right (le_of_lt h)]

/-- Swap of two list entries, as the two array writes of the source. -/
def lswap (q : List (ℚ × Nat)) (i j : Nat) : List (ℚ × Nat) :=
  let vi := q.getD i (0, 0)
  let vj := q.getD j (0, 0)
  (q.set i vj).set j vi

theorem lswap_length (q : List (ℚ × Nat)) (i j : Nat) : (lswap q i j).length = q.length := by
  unfold lswap
  rw [List.length_set, List.length_set]

/-- Bubble-up loop of `pqpush` from pq.ts.  The loop index `pos` strictly
decreases at every iteration, so a fuel of `pos + 1` always runs the loop to
completion; fuel is used (instead of well-founded recursion) to keep the
definition kernel-reducible. -/
def pqBubbleUp : Nat → List (ℚ × Nat) → Nat → List (ℚ × Nat)
  | 0, q, _ => q
  | fuel + 1, q, pos =>
    if pos = 0 then q
    else
      let parpos := (pos - 1) / 2
      if (q.getD parpos (0, 0)).1 ≤ (q.getD pos (0, 0)).1 then q
      else pqBubbleUp fuel (lswap q parpos pos) parpos

/-- Embedding of `pqpush` from pq.ts. -/
def pqpush (q : List (ℚ × Nat)) (v : ℚ × Nat) : List (ℚ × Nat) :=
  pqBubbleUp (q.length + 1) (q ++ [v]) q.length

/-- Choice of the smaller child (or `pos` itself) in one sift-down round of
`pqpop` from pq.ts: `minpos` after the two comparisons of the loop body. -/
def siftMinpos (q : List (ℚ × Nat)) (pos : Nat) : Nat :=
  let leftpos := pos * 2 + 1
  let minpos := if (q.getD leftpos (0, 0)).1 < (q.getD pos (0, 0)).1 then leftpos else pos
  let rightpos := leftpos + 1
  if rightpos < q.length ∧ (q.getD rightpos (0, 0)).1 < (q.getD minpos (0, 0)).1 then
    rightpos
  else minpos

theorem siftMinpos_ge (q : List (ℚ × Nat)) (pos : Nat) : pos ≤ siftMinpos q pos := by
  simp only [siftMinpos]
  repeat' split
  all_goals omega

/-- Sift-down loop of `pqpop` from pq.ts.  The position strictly increases and
the loop only continues while `pos * 2 + 1 < q.length`, so a fuel of
`q.length` runs the loop to completion. -/
def pqSiftDown : Nat → List (ℚ × Nat) → Nat → List (ℚ × Nat)
  | 0, q, _ => q
  | fuel + 1, q, pos =>
    if pos * 2 + 1 < q.length then
      let minpos := siftMinpos q pos
      if minpos = pos then q
      else pqSiftDown fuel (lswap q pos minpos) minpos
    else q

/-- Embedding of `pqpop` from pq.ts: returns the popped element (if any) and
the remaining heap. -/
def pqpop (q : List (ℚ × Nat)) : Option (ℚ × Nat) × List (ℚ × Nat) :=
  if q.length = 0 then (none, q)
  else if q.length < 2 then (q.head?, q.tail)
  else
    let ret := q.getD 0 (0, 0)
    let q2 := q.dropLast.set 0 (q.getLast?.getD (0, 0))
    (some ret, pqSiftDown q2.length q2 0)

/-! ### rack.ts (pathSampling): normalizePolarCutPath

The source mutates shared segment tuples: the priority queue, `activeCuts`,
`prevCandidates` and `bottomCuts` all hold references to the same arrays.  The
embedding keeps a `store : List Seg` of segment values and lets every other
container hold store indices; the heap holds `(priority, index)` pairs, where
the priority is the segment's start angle, which never changes while the
segment is in the queue (mutation happens only in the final refinement pass,
after the queue has been drained). -/

/-- `BOTTOM_TOLERANCE` from pathSampling (rack.ts), `0.00001`. -/
def BOTTOM_TOLERANCE : ℚ := mkRat 1 100000

/-- Integer-to-rational embedding used for loop counters and `Math.floor`
results (kernel-reducible, unlike the generic cast). -/
def qint (n : ℤ) : ℚ := mkRat n 1

theorem qint_eq (n : ℤ) : qint n = (n : ℚ) := by
  unfold qint
  rw [Rat.mkRat_eq_div]
  norm_num

/-- Append a wrapped segment to the store and push it on the queue, keyed by
its start angle (`pqpush(pq, [sa, ea, curve, rot])` in the source). -/
def wrapPush (acc : List Seg × List (ℚ × Nat)) (s : Seg) : List Seg × List (ℚ × Nat) :=
  (acc.1 ++ [s], pqpush acc.2 (s.sa, acc.1.length))

/-- The `while (ea > 0.5)` splitting loop of the queue-population phase.  Each
iteration decreases `ea` by 1, so `⌊|ea|⌋ + 2` iterations always finish the
loop; fuel keeps the definition kernel-reducible. -/
def wrapLoop : Nat → List Seg × List (ℚ × Nat) → ℚ → ℚ → CutCurve → ℚ → List Seg × List (ℚ × Nat)
  | 0, acc, _, _, _, _ => acc
  | fuel + 1, acc, sa, ea, curve, rot =>
    if mkRat 1 2 < ea then
      wrapLoop fuel (wrapPush acc ⟨sa, mkRat 1 2, curve, rot⟩)
        (fneg (mkRat 1 2)) (fsub ea 1) curve (fsub rot 1)
    else
      wrapPush acc ⟨sa, ea, curve, rot⟩

/-- One iteration of the queue-population loop of `normalizePolarCutPath`:
skip zero-length cuts, put the endpoints in order, shift the start angle into
`[-0.5, 0.5)` by an integer, then split at the `0.5` boundary. -/
def wrapSeg (acc : List Seg × List (ℚ × Nat)) (cut : Seg) : List Seg × List (ℚ × Nat) :=
  if cut.ea = cut.sa then acc
  else
    let sa0 := if cut.ea < cut.sa then cut.ea else cut.sa
    let ea0 := if cut.ea < cut.sa then cut.sa else cut.ea
    if sa0 < fneg (mkRat 1 2) ∨ mkRat 1 2 ≤ sa0 then
      let flr := qint (Rat.floor (fadd sa0 (mkRat 1 2)))
      wrapLoop ((Rat.floor (fabs (fsub ea0 flr))).toNat + 2) acc
        (fsub sa0 flr) (fsub ea0 flr) cut.curve (fsub cut.rot flr)
    else
      wrapLoop ((Rat.floor (fabs ea0)).toNat + 2) acc sa0 ea0 cut.curve cut.rot

/-- The whole queue-population phase: fold `wrapSeg` over the input segments,
starting from an empty store and queue. -/
def wrapSegments (segments : List Seg) : List Seg × List (ℚ × Nat) :=
  segments.foldl wrapSeg ([], [])

/-- `cut[2].getR((a - cut[3]) * dadt)`: radius of the cut at store index
`idx`, at tooth-fraction angle `a`. -/
def cutR (store : List Seg) (dadt : ℚ) (idx : Nat) (a : ℚ) : ℚ :=
  let s := store.getD idx default
  s.curve.getR (fmul (fsub a s.rot) dadt)

/-- Embedding of `getMinR` from pathSampling (rack.ts), over store indices. -/
def getMinR (store : List Seg) (dadt : ℚ) (cuts : List Nat) (a : ℚ) : Option ℚ :=
  cuts.foldl
    (fun ret idx =>
      let r := cutR store dadt idx a
      match ret with
      | none => some r
      | some m => if r ≤ m then some r else some m)
    none

/-- Embedding of `getBottomSegs` from pathSampling (rack.ts): the cuts that
still extend past `a` and whose radius at `a` is within `BOTTOM_TOLERANCE` of
`bottom`. -/
def getBottomSegs (store : List Seg) (dadt : ℚ) (cuts : List Nat) (a bottom : ℚ) : List Nat :=
  cuts.filter fun idx =>
    decide (a ≤ (store.getD idx default).ea ∧
      cutR store dadt idx a ≤ fadd bottom BOTTOM_TOLERANCE)

/-- Event points in queue (array) order: for each queued segment its start,
its end, and its curve's discontinuity angles mapped back to tooth fractions
(`a / dadt + rot`). -/
def eventPoints (store : List Seg) (pq : List (ℚ × Nat)) (dadt : ℚ) : List ℚ :=
  pq.foldl
    (fun acc e =>
      let s := store.getD e.2 default
      acc ++ [s.sa, s.ea] ++
        (s.curve.getDiscontinuityThetas (fmul (fsub s.sa s.rot) dadt)
            (fmul (fsub s.ea s.rot) dadt)).map
          (fun a => fadd (fdiv a dadt) s.rot))
    []

/-- `avoidance` from `normalizePolarCutPath`, `0.000001`. -/
def avoidance : ℚ := mkRat 1 1000000

/-- The sample points generated for one event-free range `[rangeStart,
rangeEnd]`: a midpoint when the range is narrower than `avoidance`, then an
inclusive grid of `n + 1` points with `n = ⌊(rangeEnd - rangeStart)/0.001⌋ + 1`. -/
def sampleRange (rangeStart rangeEnd : ℚ) : List ℚ :=
  (if fsub rangeEnd rangeStart < avoidance then
    [fadd rangeStart (fmul (fsub rangeEnd rangeStart) (mkRat 1 2))]
  else []) ++
  (let n := (Rat.floor (fdiv (fsub rangeEnd rangeStart) (mkRat 1 1000))).toNat + 1
   (List.range (n + 1)).map fun i =>
     fadd rangeStart (fdiv (fmul (fsub rangeEnd rangeStart) (qint (Int.ofNat i))) (qint (Int.ofNat n))))

/-- The sample-generation loop of `normalizePolarCutPath`: walk the sorted
event points, keeping `avoidance` away from each, sampling each remaining
range. -/
def buildSamples (eventAs : List ℚ) : List ℚ :=
  (eventAs.foldl
    (fun acc a =>
      let rangeStart := acc.2
      let out :=
        if rangeStart ≤ fsub a avoidance then
          acc.1 ++ sampleRange rangeStart (fsub a avoidance)
        else acc.1
      (out, fadd a avoidance))
    ([], fneg (mkRat 1 2))).1

/-- The mutable locals of the sweep loop of `normalizePolarCutPath`. -/
structure SweepState where
  pq : List (ℚ × Nat)
  activeCuts : List Nat
  prevCandidates : List Nat
  prevCandidateStartSample : ℚ
  bottomCuts : List Nat
  bottomCutStartSamples : List ℚ
  bottomCutEndSamples : List ℚ
  preva : ℚ
deriving Repr

/-- The admission loop `while (pq.length && pq[0][0] <= cura)
activeCuts.push(pqpop(pq)!)`.  Each pop shortens the queue, so a fuel of the
queue length runs it to completion. -/
def admitLoop : Nat → List (ℚ × Nat) → List Nat → ℚ → List (ℚ × Nat) × List Nat
  | 0, pq, active, _ => (pq, active)
  | fuel + 1, pq, active, cura =>
    match pq with
    | [] => (pq, active)
    | e :: _ =>
      if e.1 ≤ cura then
        match pqpop pq with
        | (some v, pq2) => admitLoop fuel pq2 (active ++ [v.2]) cura
        | (none, pq2) => (pq2, active)
      else (pq, active)

/-- One iteration of the sweep loop of `normalizePolarCutPath`, at sample
angle `cura`: admit newly started cuts, retire finished ones, test the
previous bottom candidates against the current minimum (committing the first
candidate when none survive), and reseed the candidate set when empty. -/
def sweepStep (store : List Seg) (dadt : ℚ) (st : SweepState) (cura : ℚ) : SweepState :=
  let pa := admitLoop st.pq.length st.pq st.activeCuts cura
  let pq2 := pa.1
  let active := pa.2.filter fun idx => decide (cura < (store.getD idx default).ea)
  let curMin := getMinR store dadt active cura
  let st1 :=
    if st.prevCandidates = [] then st
    else
      let survivors :=
        match curMin with
        | none => []
        | some m => getBottomSegs store dadt st.prevCandidates cura m
      let st' :=
        if survivors = [] then
          { st with
            bottomCuts := st.bottomCuts ++ [st.prevCandidates.headD 0]
            bottomCutStartSamples := st.bottomCutStartSamples ++ [st.prevCandidateStartSample]
            bottomCutEndSamples := st.bottomCutEndSamples ++ [st.preva] }
        else st
      { st' with prevCandidates := survivors, preva := cura }
  let st2 :=
    match curMin with
    | some m =>
      if st1.prevCandidates = [] then
        { st1 with
          prevCandidates := getBottomSegs store dadt active cura m
          prevCandidateStartSample := cura }
      else st1
    | none => st1
  { st2 with pq := pq2, activeCuts := active }

/-- The flush after the sweep loop: commit the still-open candidate run. -/
def sweepFlush (st : SweepState) : SweepState :=
  if st.prevCandidates = [] then st
  else
    { st with
      bottomCuts := st.bottomCuts ++ [st.prevCandidates.headD 0]
      bottomCutStartSamples := st.bottomCutStartSamples ++ [st.prevCandidateStartSample]
      bottomCutEndSamples := st.bottomCutEndSamples ++ [st.preva] }

/-- Initial sweep state: empty actives and candidates, start samples `-0.5`. -/
def sweepInit (pq0 : List (ℚ × Nat)) : SweepState :=
  ⟨pq0, [], [], fneg (mkRat 1 2), [], [], [], fneg (mkRat 1 2)⟩

/-- The whole sweep phase: fold the step over the sample angles, then flush. -/
def sweepRun (store : List Seg) (dadt : ℚ) (samples : List ℚ) (pq0 : List (ℚ × Nat)) : SweepState :=
  sweepFlush (samples.foldl (sweepStep store dadt) (sweepInit pq0))

/-- One iteration of the stitching pass: if cuts `i - 1` and `i` of
`bottomCuts` overlap, binary-search the crossover inside the overlap and
truncate both segments there (writing `locut[1]` then `hicut[0]`, so aliasing
behaves as in the source). -/
def refineStep (dadt : ℚ) (sfuel : Nat) (bc : List Nat) (starts : List ℚ) (store : List Seg) (i : Nat) : List Seg :=
  let locutIdx := bc.getD (i - 1) 0
  let hicutIdx := bc.getD i 0
  let locut := store.getD locutIdx default
  let hicut := store.getD hicutIdx default
  if hicut.sa < locut.ea then
    let loa0 := fmax (starts.getD (i - 1) 0) hicut.sa
    let hia0 := fmin (starts.getD i 0) locut.ea
    let lohi := searchForFloat sfuel loa0 hia0 fun testa =>
      decide (locut.curve.getR (fmul (fsub testa locut.rot) dadt) <
        hicut.curve.getR (fmul (fsub testa hicut.rot) dadt))
    let loa := lohi.1
    let hia1 := lohi.2
    let lor := locut.curve.getR (fmul (fsub loa locut.rot) dadt)
    let hir := hicut.curve.getR (fmul (fsub hia1 hicut.rot) dadt)
    let hia := if lor = hir then loa else hia1
    let store1 := store.set locutIdx { locut with ea := loa }
    let hicut1 := store1.getD hicutIdx default
    store1.set hicutIdx { hicut1 with sa := hia }
  else store

/-- The stitching loop `for (let i = 1; i < bottomCuts.length; ++i)`,
structurally recursing on the number of remaining iterations. -/
def refineLoop (dadt : ℚ) (sfuel : Nat) (bc : List Nat) (starts : List ℚ) : Nat → Nat → List Seg → List Seg
  | 0, _, store => store
  | k + 1, i, store => refineLoop dadt sfuel bc starts k (i + 1) (refineStep dadt sfuel bc starts store i)

/-- Embedding of `normalizePolarCutPath` from pathSampling (rack.ts).
`sfuel` is the iteration supply handed to each `searchForFloat` call (the
source's loop runs until float granularity stops progress). -/
def normalizePolarCutPath (sfuel : Nat) (segments : List Seg) (dadt : ℚ) : List Seg :=
  let wp := wrapSegments segments
  let store := wp.1
  let pq := wp.2
  if pq.length = 0 then []
  else
    let eventAs := List.insertionSort (fun a b : ℚ => a ≤ b) (eventPoints store pq dadt).dedup
    let sampleAs := buildSamples eventAs
    let fin := sweepRun store dadt sampleAs pq
    let store2 := refineLoop dadt sfuel fin.bottomCuts fin.bottomCutStartSamples
      (fin.bottomCuts.length - 1) 1 store
    fin.bottomCuts.map fun idx => store2.getD idx default

/-! ### C6: the canonical window of wrapped segments -/

theorem mkRat_half : (mkRat 1 2 : ℚ) = 1 / 2 := by
  rw [Rat.mkRat_eq_div]
  norm_num

theorem fneg_half : fneg (mkRat 1 2) = -(1 / 2 : ℚ) := by
  rw [fneg_eq, mkRat_half]

/-- Membership in the store after a `wrapPush`. -/
theorem wrapPush_store_mem (acc : List Seg × List (ℚ × Nat)) (x s : Seg)
    (h : s ∈ (wrapPush acc x).1) : s ∈ acc.1 ∨ s = x := by
  unfold wrapPush at h
  simp only [List.mem_append, List.mem_singleton] at h
  exact h

/-- A wrapped segment lies in the closed-below window: `-0.5 ≤ sa < ea ≤ 0.5`. -/
def InWindow (s : Seg) : Prop :=
  fneg (mkRat 1 2) ≤ s.sa ∧ s.sa < s.ea ∧ s.ea ≤ mkRat 1 2

instance (s : Seg) : Decidable (InWindow s) := by
  unfold InWindow
  infer_instance

/-- The splitting loop preserves the window invariant: given
`-0.5 ≤ sa < 0.5` and `sa < ea`, every emitted piece is in the window. -/
theorem wrapLoop_window (fuel : Nat) (acc : List Seg × List (ℚ × Nat)) (sa ea : ℚ)
    (curve : CutCurve) (rot : ℚ)
    (hacc : ∀ s ∈ acc.1, InWindow s)
    (h1 : fneg (mkRat 1 2) ≤ sa) (h2 : sa < mkRat 1 2) (h3 : sa < ea) :
    ∀ s ∈ (wrapLoop fuel acc sa ea curve rot).1, InWindow s := by
  induction fuel generalizing acc sa ea rot with
  | zero =>
    simpa only [wrapLoop] using hacc
  | succ n ih =>
    simp only [wrapLoop]
    split
    · rename_i hgt
      refine ih _ _ _ _ ?_ ?_ ?_ ?_
      · intro s hs
        rcases wrapPush_store_mem _ _ _ hs with h | h
        · exact hacc s h
        · subst h
          exact ⟨h1, h2, le_refl _⟩
      · exact le_refl _
      · rw [fneg_half, mkRat_half]
        norm_num
      · rw [fneg_half, fsub_eq]
        rw [mkRat_half] at hgt
        linarith
    · rename_i hle
      intro s hs
      rcases wrapPush_store_mem _ _ _ hs with h | h
      · exact hacc s h
      · subst h
        exact ⟨h1, h3, le_of_not_lt hle⟩

/-- The floor shift lands the start angle at or above `-0.5`. -/
theorem shiftLow (x : ℚ) :
    fneg (mkRat 1 2) ≤ fsub x (qint (Rat.floor (fadd x (mkRat 1 2)))) := by
  rw [fneg_half, fsub_eq, qint_eq, fadd_eq, ffloor_eq, mkRat_half]
  have := Int.floor_le (x + 1 / 2)
  linarith

/-- The floor shift lands the start angle strictly below `0.5`. -/
theorem shiftHigh (x : ℚ) :
    fsub x (qint (Rat.floor (fadd x (mkRat 1 2)))) < mkRat 1 2 := by
  rw [fsub_eq, qint_eq, fadd_eq, ffloor_eq, mkRat_half]
  have := Int.lt_floor_add_one (x + 1 / 2)
  linarith

/-- Processing one input segment preserves the window invariant over the
store. -/
theorem wrapSeg_window (acc : List Seg × List (ℚ × Nat)) (cut : Seg)
    (hacc : ∀ s ∈ acc.1, InWindow s) :
    ∀ s ∈ (wrapSeg acc cut).1, InWindow s := by
  unfold wrapSeg
  split
  · exact hacc
  rename_i hne
  split
  · rename_i hswap
    simp only []
    split
    · refine wrapLoop_window _ _ _ _ _ _ hacc (shiftLow _) (shiftHigh _) ?_
      simp only [fsub_eq]
      linarith
    · rename_i hsh
      push_neg at hsh
      exact wrapLoop_window _ _ _ _ _ _ hacc hsh.1 hsh.2 hswap
  · rename_i hswap
    have hlt : cut.sa < cut.ea := lt_of_le_of_ne (le_of_not_lt hswap) (Ne.symm hne)
    simp only []
    split
    · refine wrapLoop_window _ _ _ _ _ _ hacc (shiftLow _) (shiftHigh _) ?_
      simp only [fsub_eq]
      linarith
    · rename_i hsh
      push_neg at hsh
      exact wrapLoop_window _ _ _ _ _ _ hacc hsh.1 hsh.2 hlt

/-- A constant-radius cut with no discontinuities (the normalizer-facing
behavior of `makeConstantRadiusCut`). -/
def constCurve (r : ℚ) : CutCurve := ⟨fun _ => r, fun _ _ => []⟩

theorem foldl_wrapSeg_window (segments : List Seg) (acc : List Seg × List (ℚ × Nat))
    (hacc : ∀ s ∈ acc.1, InWindow s) :
    ∀ s ∈ (segments.foldl wrapSeg acc).1, InWindow s := by
  induction segments generalizing acc with
  | nil => simpa only [List.foldl_nil] using hacc
  | cons c rest ih => exact ih _ (wrapSeg_window _ _ hacc)

/-- C6 (amended): every segment entering the sweep — i.e. every segment
produced by the queue-population phase of `normalizePolarCutPath` — lies in
the canonical tooth window with `-0.5 ≤ start < end ≤ 0.5`.  The window is
closed below, not open as claimed: the start angle can be exactly `-0.5`. -/
theorem wrapSegments_window (segments : List Seg) :
    ∀ s ∈ (wrapSegments segments).1, InWindow s := by
  refine foldl_wrapSeg_window segments ([], []) ?_
  intro s hs
  exact absurd hs (List.not_mem_nil s)

/-- Witness: the wrap phase keeps the segment `[0, 1/4]` unchanged, and it
lies in the window. -/
theorem wrapSegments_window_witness :
    InWindow ⟨0, mkRat 1 4, constCurve 1, 0⟩ :=
  wrapSegments_window [⟨0, mkRat 1 4, constCurve 1, 0⟩] ⟨0, mkRat 1 4, constCurve 1, 0⟩
    (by
      have h : (wrapSegments [(⟨0, mkRat 1 4, constCurve 1, 0⟩ : Seg)]).1
          = [⟨0, mkRat 1 4, constCurve 1, 0⟩] := rfl
      rw [h]
      exact List.mem_singleton.mpr rfl)

/-- C6 counterexample: the input segment spanning `[-0.5, 0.5]` enters the
sweep with start angle exactly `-0.5`, which is not inside the claimed
open-below window `(-0.5, 0.5]`. -/
theorem wrapWindow_boundary_cex :
    ∃ s ∈ (wrapSegments [⟨fneg (mkRat 1 2), mkRat 1 2, constCurve 1, 0⟩]).1,
      ¬ fneg (mkRat 1 2) < s.sa := by
  refine ⟨⟨fneg (mkRat 1 2), mkRat 1 2, constCurve 1, 0⟩, ?_, ?_⟩
  · have h : (wrapSegments [(⟨fneg (mkRat 1 2), mkRat 1 2, constCurve 1, 0⟩ : Seg)]).1
        = [⟨fneg (mkRat 1 2), mkRat 1 2, constCurve 1, 0⟩] := rfl
    rw [h]
    exact List.mem_singleton.mpr rfl
  · decide

/-! ### C1: envelope minimality -/

/-- Center of the narrow dip, placed midway between two adjacent probe
samples of the `[-0.5, -0.49]` range. -/
def c1c : ℚ := mkRat (-4954999) 10000000

/-- Constant cut of radius 1 over `[-0.5, -0.49]`. -/
def c1A : Seg := ⟨mkRat (-1) 2, mkRat (-49) 100, constCurve 1, 0⟩

/-- A continuous cut over `[-0.5, -0.49]`: radius `min(10, 1/2 + 40000·|θ - c|)`,
a V-shaped dip to `1/2` at `c` that is narrower than the `0.001` probe
spacing, so every probe sample sees radius 10. -/
def c1B : Seg :=
  ⟨mkRat (-1) 2, mkRat (-49) 100,
    ⟨fun θ => fmin 10 (fadd (mkRat 1 2) (fmul 40000 (fabs (fsub θ c1c)))), fun _ _ => []⟩, 0⟩

/-- C1 counterexample: for the two cuts `c1A` (radius 1) and `c1B` (radius
dipping to 1/2 between two probes), the normalized envelope is the single
segment `[-0.5, -0.49]` won by `c1A`; at the probe angle `c1c`, inside the
output segment and inside `c1B`'s span, the winner's radius 1 exceeds
`c1B`'s radius 1/2 by far more than `BOTTOM_TOLERANCE`, refuting envelope
minimality. -/
theorem normalizePolar_minimality_cex :
    ((normalizePolarCutPath 30 [c1A, c1B] 1).map fun s => (s.sa, s.ea, s.rot)) =
        [(mkRat (-1) 2, mkRat (-49) 100, 0)] ∧
    ((normalizePolarCutPath 30 [c1A, c1B] 1).getD 0 default).sa < c1c ∧
    c1c < ((normalizePolarCutPath 30 [c1A, c1B] 1).getD 0 default).ea ∧
    c1B.sa < c1c ∧ c1c < c1B.ea ∧
    cutR (normalizePolarCutPath 30 [c1A, c1B] 1) 1 0 c1c = 1 ∧
    cutR [c1A, c1B] 1 1 c1c = mkRat 1 2 ∧
    ¬ cutR (normalizePolarCutPath 30 [c1A, c1B] 1) 1 0 c1c ≤
        fadd (cutR [c1A, c1B] 1 1 c1c) BOTTOM_TOLERANCE := by
  decide

/-! ### C2: envelope structure after refinement -/

/-- Constant cut of radius 1 over `[-0.5, -0.498]`. -/
def c2A : Seg := ⟨mkRat (-1) 2, mkRat (-498) 1000, constCurve 1, 0⟩

/-- Constant cut of radius 2 over `[-0.4995, -0.497]`. -/
def c2B : Seg := ⟨mkRat (-4995) 10000, mkRat (-497) 1000, constCurve 2, 0⟩

/-- C2 counterexample: for the overlapping constant cuts `c2A` (radius 1)
and `c2B` (radius 2), the refinement's binary search cannot find a crossover
(radius 1 is below radius 2 on the whole overlap), so the two output
segments are left with a gap of positive width `3/2147483648000` between
them — the coverage has a hole — and the two radius functions do not agree
at the second segment's start angle (1 versus 2), refuting gap-freeness and
stitch continuity. -/
theorem normalizePolar_stitch_cex :
    ((normalizePolarCutPath 30 [c2A, c2B] 1).map fun s => (s.sa, s.ea, s.rot)) =
        [(mkRat (-1) 2, mkRat (-1069446856707) 2147483648000, 0),
         (mkRat (-249) 500, mkRat (-497) 1000, 0)] ∧
    ((normalizePolarCutPath 30 [c2A, c2B] 1).getD 0 default).ea <
      ((normalizePolarCutPath 30 [c2A, c2B] 1).getD 1 default).sa ∧
    ¬ cutR (normalizePolarCutPath 30 [c2A, c2B] 1) 1 0
        (((normalizePolarCutPath 30 [c2A, c2B] 1).getD 1 default).sa) =
      cutR (normalizePolarCutPath 30 [c2A, c2B] 1) 1 1
        (((normalizePolarCutPath 30 [c2A, c2B] 1).getD 1 default).sa) := by
  decide

/-- The sweep state after processing the first `i` sample angles. -/
def stateAt (store : List Seg) (dadt : ℚ) (pq0 : List (ℚ × Nat)) (samples : List ℚ) (i : Nat) : SweepState :=
  (samples.take i).foldl (sweepStep store dadt) (sweepInit pq0)

theorem stateAt_succ (store : List Seg) (dadt : ℚ) (pq0 : List (ℚ × Nat)) (samples : List ℚ)
    (i : Nat) (h : i < samples.length) :
    stateAt store dadt pq0 samples (i + 1) =
      sweepStep store dadt (stateAt store dadt pq0 samples i) (samples.getD i 0) := by
  unfold stateAt
  rw [List.take_succ, List.foldl_append]
  rw [List.getElem?_eq_getElem h]
  simp only [Option.toList_some, List.foldl_cons, List.foldl_nil]
  rw [List.getD_eq_getElem?_getD, List.getElem?_eq_getElem h]
  rfl

theorem stateAt_length (store : List Seg) (dadt : ℚ) (pq0 : List (ℚ × Nat)) (samples : List ℚ) :
    stateAt store dadt pq0 samples samples.length =
      samples.foldl (sweepStep store dadt) (sweepInit pq0) := by
  unfold stateAt
  rw [List.take_length]

/-- The active set used while processing sample `i` (it is recorded in the
post-state). -/
def minAt (store : List Seg) (dadt : ℚ) (pq0 : List (ℚ × Nat)) (samples : List ℚ) (i : Nat) : Option ℚ :=
  getMinR store dadt (stateAt store dadt pq0 samples (i + 1)).activeCuts (samples.getD i 0)

/-- Cut `c` passes the candidate test at sample `i`: it extends to the
sample, and its radius there is within `BOTTOM_TOLERANCE` of the minimum
radius over the cuts active at that sample. -/
def PassAt (store : List Seg) (dadt : ℚ) (pq0 : List (ℚ × Nat)) (samples : List ℚ) (i c : Nat) : Prop :=
  samples.getD i 0 ≤ (store.getD c default).ea ∧
  ∃ m, minAt store dadt pq0 samples i = some m ∧
    cutR store dadt c (samples.getD i 0) ≤ fadd m BOTTOM_TOLERANCE

/-- Invariant of the sweep loop after `i` processed samples: bookkeeping
lists are in sync; every committed cut passed the candidate test at every
sample lying in its committed range; live candidates have passed at every
sample since their run started; and `preva` is the initial `-0.5` or an
already-processed sample. -/
def SweepInv (store : List Seg) (dadt : ℚ) (pq0 : List (ℚ × Nat)) (samples : List ℚ)
    (st : SweepState) (i : Nat) : Prop :=
  (st.bottomCutStartSamples.length = st.bottomCuts.length ∧
   st.bottomCutEndSamples.length = st.bottomCuts.length) ∧
  (∀ k, k < st.bottomCuts.length → ∀ j, j < samples.length →
    st.bottomCutStartSamples.getD k 0 ≤ samples.getD j 0 →
    samples.getD j 0 ≤ st.bottomCutEndSamples.getD k 0 →
    PassAt store dadt pq0 samples j (st.bottomCuts.getD k 0)) ∧
  (st.prevCandidates ≠ [] → ∃ i0, i0 < i ∧
    st.prevCandidateStartSample = samples.getD i0 0 ∧
    ∀ c ∈ st.prevCandidates, ∀ j, i0 ≤ j → j < i → PassAt store dadt pq0 samples j c) ∧
  (st.preva = fneg (mkRat 1 2) ∨ ∃ jp, jp < i ∧ st.preva = samples.getD jp 0)

theorem getD_append_last {α : Type} (l : List α) (x d : α) : (l ++ [x]).getD l.length d = x := by
  rw [List.getD_eq_getElem?_getD, List.getElem?_append_right (le_refl _)]
  simp

theorem getD_mem_of_lt {α : Type} (l : List α) (n : Nat) (d : α) (h : n < l.length) :
    l.getD n d ∈ l := by
  rw [List.getD_eq_getElem?_getD, List.getElem?_eq_getElem h]
  exact List.getElem_mem h

theorem pairwise_getD_lt (samples : List ℚ)
    (hmono : List.Pairwise (fun a b : ℚ => a < b) samples)
    (j1 j2 : Nat) (h12 : j1 < j2) (h2 : j2 < samples.length) :
    samples.getD j1 0 < samples.getD j2 0 := by
  have h1 : j1 < samples.length := lt_trans h12 h2
  rw [List.getD_eq_getElem?_getD, List.getElem?_eq_getElem h1,
    List.getD_eq_getElem?_getD, List.getElem?_eq_getElem h2]
  exact List.pairwise_iff_getElem.mp hmono j1 j2 h1 h2 h12

theorem getBottomSegs_spec (store : List Seg) (dadt : ℚ) (cuts : List Nat) (a bottom : ℚ)
    (c : Nat) (h : c ∈ getBottomSegs store dadt cuts a bottom) :
    c ∈ cuts ∧ a ≤ (store.getD c default).ea ∧
      cutR store dadt c a ≤ fadd bottom BOTTOM_TOLERANCE := by
  unfold getBottomSegs at h
  rw [List.mem_filter] at h
  exact ⟨h.1, of_decide_eq_true h.2⟩

theorem sweepStep_activeCuts (store : List Seg) (dadt : ℚ) (st : SweepState) (cura : ℚ) :
    (sweepStep store dadt st cura).activeCuts =
      (admitLoop st.pq.length st.pq st.activeCuts cura).2.filter
        (fun idx => decide (cura < (store.getD idx default).ea)) := rfl

/-- When the loop commits the head of the candidate run, the committed cut
passed the candidate test at every sample inside the committed range. -/
theorem commit_good (store : List Seg) (dadt : ℚ) (pq0 : List (ℚ × Nat)) (samples : List ℚ)
    (hmono : List.Pairwise (fun a b : ℚ => a < b) samples)
    (hlb : ∀ a ∈ samples, fneg (mkRat 1 2) ≤ a)
    (st : SweepState) (i : Nat) (hi : i ≤ samples.length)
    (hC : st.prevCandidates ≠ [] → ∃ i0, i0 < i ∧
      st.prevCandidateStartSample = samples.getD i0 0 ∧
      ∀ c ∈ st.prevCandidates, ∀ j, i0 ≤ j → j < i → PassAt store dadt pq0 samples j c)
    (hD : st.preva = fneg (mkRat 1 2) ∨ ∃ jp, jp < i ∧ st.preva = samples.getD jp 0)
    (hne : st.prevCandidates ≠ []) :
    ∀ j, j < samples.length → st.prevCandidateStartSample ≤ samples.getD j 0 →
      samples.getD j 0 ≤ st.preva →
      PassAt store dadt pq0 samples j (st.prevCandidates.headD 0) := by
  obtain ⟨i0, hi0, hpcss, hpass⟩ := hC hne
  intro j hj hstart hend
  have hhead : st.prevCandidates.headD 0 ∈ st.prevCandidates := by
    cases h : st.prevCandidates with
    | nil => exact absurd h hne
    | cons a t => exact List.mem_cons_self a t
  have hji0 : i0 ≤ j := by
    by_contra hcon
    push_neg at hcon
    have := pairwise_getD_lt samples hmono j i0 hcon (lt_of_lt_of_le hi0 hi)
    rw [hpcss] at hstart
    linarith
  rcases hD with hD | ⟨jp, hjp, hpe⟩
  · rw [hD] at hend
    have hgej : fneg (mkRat 1 2) ≤ samples.getD j 0 := hlb _ (getD_mem_of_lt _ _ _ hj)
    have hgei0 : fneg (mkRat 1 2) ≤ samples.getD i0 0 :=
      hlb _ (getD_mem_of_lt _ _ _ (lt_of_lt_of_le hi0 hi))
    rw [hpcss] at hstart
    have hj_eq : j = i0 := by
      rcases Nat.lt_trichotomy j i0 with h | h | h
      · omega
      · exact h
      · exfalso
        have := pairwise_getD_lt samples hmono i0 j h hj
        linarith
    subst hj_eq
    exact hpass _ hhead j (le_refl _) hi0
  · rw [hpe] at hend
    have hjjp : j ≤ jp := by
      by_contra hcon
      push_neg at hcon
      have := pairwise_getD_lt samples hmono jp j hcon hj
      linarith
    exact hpass _ hhead j hji0 (lt_of_le_of_lt hjjp hjp)

theorem passAt_of_mem (store : List Seg) (dadt : ℚ) (pq0 : List (ℚ × Nat)) (samples : List ℚ)
    (i : Nat) (m : ℚ) (cuts : List Nat)
    (hm : minAt store dadt pq0 samples i = some m) (c : Nat)
    (h : c ∈ getBottomSegs store dadt cuts (samples.getD i 0) m) :
    PassAt store dadt pq0 samples i c := by
  obtain ⟨_, h1, h2⟩ := getBottomSegs_spec _ _ _ _ _ _ h
  exact ⟨h1, m, hm, h2⟩

/-- The admitted-and-retired active set computed by one sweep step. -/
def activeOf (store : List Seg) (st : SweepState) (cura : ℚ) : List Nat :=
  (admitLoop st.pq.length st.pq st.activeCuts cura).2.filter
    (fun idx => decide (cura < (store.getD idx default).ea))

/-- Step characterization: candidates empty and no active cut. -/
theorem sweepStep_eq_idle (store : List Seg) (dadt : ℚ) (st : SweepState) (cura : ℚ)
    (hempty : st.prevCandidates = [])
    (hm : getMinR store dadt (activeOf store st cura) cura = none) :
    sweepStep store dadt st cura =
      { st with pq := (admitLoop st.pq.length st.pq st.activeCuts cura).1,
                activeCuts := activeOf store st cura } := by
  unfold sweepStep activeOf
  unfold activeOf at hm
  simp only []
  rw [hm]
  simp only [hempty, reduceIte]

/-- Step characterization: candidates empty, a run is seeded. -/
theorem sweepStep_eq_reseed (store : List Seg) (dadt : ℚ) (st : SweepState) (cura : ℚ) (m : ℚ)
    (hempty : st.prevCandidates = [])
    (hm : getMinR store dadt (activeOf store st cura) cura = some m) :
    sweepStep store dadt st cura =
      { st with pq := (admitLoop st.pq.length st.pq st.activeCuts cura).1,
                activeCuts := activeOf store st cura,
                prevCandidates := getBottomSegs store dadt (activeOf store st cura) cura m,
                prevCandidateStartSample := cura } := by
  unfold sweepStep activeOf
  unfold activeOf at hm
  simp only []
  rw [hm]
  simp only [hempty, reduceIte]

/-- Step characterization: some candidates survive the test. -/
theorem sweepStep_eq_survive (store : List Seg) (dadt : ℚ) (st : SweepState) (cura : ℚ) (m : ℚ)
    (hne0 : st.prevCandidates ≠ [])
    (hm : getMinR store dadt (activeOf store st cura) cura = some m)
    (hsurv : getBottomSegs store dadt st.prevCandidates cura m ≠ []) :
    sweepStep store dadt st cura =
      { st with pq := (admitLoop st.pq.length st.pq st.activeCuts cura).1,
                activeCuts := activeOf store st cura,
                prevCandidates := getBottomSegs store dadt st.prevCandidates cura m,
                preva := cura } := by
  unfold sweepStep activeOf
  unfold activeOf at hm
  simp only []
  rw [hm]
  simp only [if_neg hne0, if_neg hsurv]

/-- Step characterization: the run dies but cuts remain active — commit the
head and seed a new run. -/
theorem sweepStep_eq_commit_reseed (store : List Seg) (dadt : ℚ) (st : SweepState) (cura : ℚ) (m : ℚ)
    (hne0 : st.prevCandidates ≠ [])
    (hm : getMinR store dadt (activeOf store st cura) cura = some m)
    (hsurv : getBottomSegs store dadt st.prevCandidates cura m = []) :
    sweepStep store dadt st cura =
      { st with pq := (admitLoop st.pq.length st.pq st.activeCuts cura).1,
                activeCuts := activeOf store st cura,
                prevCandidates := getBottomSegs store dadt (activeOf store st cura) cura m,
                prevCandidateStartSample := cura,
                bottomCuts := st.bottomCuts ++ [st.prevCandidates.headD 0],
                bottomCutStartSamples := st.bottomCutStartSamples ++ [st.prevCandidateStartSample],
                bottomCutEndSamples := st.bottomCutEndSamples ++ [st.preva],
                preva := cura } := by
  unfold sweepStep activeOf
  unfold activeOf at hm
  simp only []
  rw [hm]
  simp only [if_neg hne0, hsurv, reduceIte]

/-- Step characterization: the run dies and no cut is active — commit only. -/
theorem sweepStep_eq_commit_dead (store : List Seg) (dadt : ℚ) (st : SweepState) (cura : ℚ)
    (hne0 : st.prevCandidates ≠ [])
    (hm : getMinR store dadt (activeOf store st cura) cura = none) :
    sweepStep store dadt st cura =
      { st with pq := (admitLoop st.pq.length st.pq st.activeCuts cura).1,
                activeCuts := activeOf store st cura,
                prevCandidates := [],
                bottomCuts := st.bottomCuts ++ [st.prevCandidates.headD 0],
                bottomCutStartSamples := st.bottomCutStartSamples ++ [st.prevCandidateStartSample],
                bottomCutEndSamples := st.bottomCutEndSamples ++ [st.preva],
                preva := cura } := by
  unfold sweepStep activeOf
  unfold activeOf at hm
  simp only []
  rw [hm]
  simp only [if_neg hne0, reduceIte]

/-- One sweep step preserves the invariant. -/
theorem sweepStep_inv (store : List Seg) (dadt : ℚ) (pq0 : List (ℚ × Nat)) (samples : List ℚ)
    (hmono : List.Pairwise (fun a b : ℚ => a < b) samples)
    (hlb : ∀ a ∈ samples, fneg (mkRat 1 2) ≤ a)
    (i : Nat) (hi : i < samples.length)
    (hinv : SweepInv store dadt pq0 samples (stateAt store dadt pq0 samples i) i) :
    SweepInv store dadt pq0 samples (stateAt store dadt pq0 samples (i + 1)) (i + 1) := by
  obtain ⟨⟨hlen1, hlen2⟩, hB, hC, hD⟩ := hinv
  have hcommit := commit_good store dadt pq0 samples hmono hlb
    (stateAt store dadt pq0 samples i) i (le_of_lt hi) hC hD
  have hminAt : minAt store dadt pq0 samples i =
      getMinR store dadt
        (activeOf store (stateAt store dadt pq0 samples i) (samples.getD i 0))
        (samples.getD i 0) := by
    unfold minAt
    rw [stateAt_succ store dadt pq0 samples i hi]
    rfl
  rw [stateAt_succ store dadt pq0 samples i hi]
  generalize hsteq : stateAt store dadt pq0 samples i = st at hlen1 hlen2 hB hC hD hcommit hminAt
  clear hsteq
  by_cases hempty : st.prevCandidates = []
  · rcases hm : getMinR store dadt (activeOf store st (samples.getD i 0)) (samples.getD i 0)
      with _ | m
    · rw [sweepStep_eq_idle store dadt st _ hempty hm]
      refine ⟨⟨hlen1, hlen2⟩, hB, ?_, ?_⟩
      · intro hne2
        exact absurd hempty hne2
      · rcases hD with h | ⟨jp, hjp, hpe⟩
        · exact Or.inl h
        · exact Or.inr ⟨jp, Nat.lt_succ_of_lt hjp, hpe⟩
    · rw [sweepStep_eq_reseed store dadt st _ m hempty hm]
      refine ⟨⟨hlen1, hlen2⟩, hB, ?_, ?_⟩
      · intro _
        refine ⟨i, Nat.lt_succ_self i, rfl, ?_⟩
        intro c hc j hj1 hj2
        have hj : j = i := by omega
        subst hj
        exact passAt_of_mem store dadt pq0 samples j m _ (hminAt.trans hm) c hc
      · rcases hD with h | ⟨jp, hjp, hpe⟩
        · exact Or.inl h
        · exact Or.inr ⟨jp, Nat.lt_succ_of_lt hjp, hpe⟩
  · rcases hm : getMinR store dadt (activeOf store st (samples.getD i 0)) (samples.getD i 0)
      with _ | m
    · rw [sweepStep_eq_commit_dead store dadt st _ hempty hm]
      refine ⟨?_, ?_, ?_, Or.inr ⟨i, Nat.lt_succ_self i, rfl⟩⟩
      · constructor
        · simp only [List.length_append, List.length_singleton]
          omega
        · simp only [List.length_append, List.length_singleton]
          omega
      · intro k hk j hj h1 h2
        simp only [List.length_append, List.length_singleton] at hk
        rcases Nat.lt_or_ge k st.bottomCuts.length with hklt | hkge
        · rw [List.getD_append _ _ _ _ (hlen1 ▸ hklt)] at h1
          rw [List.getD_append _ _ _ _ (hlen2 ▸ hklt)] at h2
          rw [List.getD_append _ _ _ _ hklt]
          exact hB k hklt j hj h1 h2
        · have hkeq : k = st.bottomCuts.length := by omega
          subst hkeq
          rw [← hlen1, getD_append_last] at h1
          rw [← hlen2, getD_append_last] at h2
          rw [getD_append_last]
          exact hcommit hempty j hj h1 h2
      · intro hne2
        exact absurd rfl hne2
    · by_cases hsurv : getBottomSegs store dadt st.prevCandidates (samples.getD i 0) m = []
      · rw [sweepStep_eq_commit_reseed store dadt st _ m hempty hm hsurv]
        refine ⟨?_, ?_, ?_, Or.inr ⟨i, Nat.lt_succ_self i, rfl⟩⟩
        · constructor
          · simp only [List.length_append, List.length_singleton]
            omega
          · simp only [List.length_append, List.length_singleton]
            omega
        · intro k hk j hj h1 h2
          simp only [List.length_append, List.length_singleton] at hk
          rcases Nat.lt_or_ge k st.bottomCuts.length with hklt | hkge
          · rw [List.getD_append _ _ _ _ (hlen1 ▸ hklt)] at h1
            rw [List.getD_append _ _ _ _ (hlen2 ▸ hklt)] at h2
            rw [List.getD_append _ _ _ _ hklt]
            exact hB k hklt j hj h1 h2
          · have hkeq : k = st.bottomCuts.length := by omega
            subst hkeq
            rw [← hlen1, getD_append_last] at h1
            rw [← hlen2, getD_append_last] at h2
            rw [getD_append_last]
            exact hcommit hempty j hj h1 h2
        · intro _
          refine ⟨i, Nat.lt_succ_self i, rfl, ?_⟩
          intro c hc j hj1 hj2
          have hj : j = i := by omega
          subst hj
          exact passAt_of_mem store dadt pq0 samples j m _ (hminAt.trans hm) c hc
      · rw [sweepStep_eq_survive store dadt st _ m hempty hm hsurv]
        refine ⟨⟨hlen1, hlen2⟩, hB, ?_, Or.inr ⟨i, Nat.lt_succ_self i, rfl⟩⟩
        intro _
        obtain ⟨i0, hi0, hpcss, hpass⟩ := hC hempty
        refine ⟨i0, Nat.lt_succ_of_lt hi0, hpcss, ?_⟩
        intro c hc j hj1 hj2
        rcases Nat.lt_or_ge j i with hji | hji
        · exact hpass c (getBottomSegs_spec _ _ _ _ _ _ hc).1 j hj1 hji
        · have hj : j = i := by omega
          subst hj
          exact passAt_of_mem store dadt pq0 samples j m _ (hminAt.trans hm) c hc

theorem sweepInv_all (store : List Seg) (dadt : ℚ) (pq0 : List (ℚ × Nat)) (samples : List ℚ)
    (hmono : List.Pairwise (fun a b : ℚ => a < b) samples)
    (hlb : ∀ a ∈ samples, fneg (mkRat 1 2) ≤ a) :
    ∀ i, i ≤ samples.length → SweepInv store dadt pq0 samples (stateAt store dadt pq0 samples i) i := by
  intro i
  induction i with
  | zero =>
    intro _
    refine ⟨⟨rfl, rfl⟩, ?_, ?_, Or.inl rfl⟩
    · intro k hk
      exact absurd hk (Nat.not_lt_zero k)
    · intro hne
      exact absurd rfl hne
  | succ n ih =>
    intro h
    exact sweepStep_inv store dadt pq0 samples hmono hlb n (Nat.lt_of_succ_le h)
      (ih (le_of_lt (Nat.lt_of_succ_le h)))

/-- C1 (amended): envelope minimality holds at the probe samples, not at
every angle.  For strictly increasing samples bounded below by `-0.5`, every
cut committed by the sweep passed the candidate test at every probe sample
inside its committed range: its radius there is within `BOTTOM_TOLERANCE` of
the minimum radius over the then-active cuts.  Between two adjacent probes
the radius of another cut may dip arbitrarily far below the winner without
being noticed (see the counterexample). -/
theorem sweep_envelope_minimality (store : List Seg) (dadt : ℚ) (samples : List ℚ)
    (pq0 : List (ℚ × Nat))
    (hmono : List.Pairwise (fun a b : ℚ => a < b) samples)
    (hlb : ∀ a ∈ samples, fneg (mkRat 1 2) ≤ a) :
    ∀ k, k < (sweepRun store dadt samples pq0).bottomCuts.length →
    ∀ j, j < samples.length →
    (sweepRun store dadt samples pq0).bottomCutStartSamples.getD k 0 ≤ samples.getD j 0 →
    samples.getD j 0 ≤ (sweepRun store dadt samples pq0).bottomCutEndSamples.getD k 0 →
    PassAt store dadt pq0 samples j ((sweepRun store dadt samples pq0).bottomCuts.getD k 0) := by
  have hinv := sweepInv_all store dadt pq0 samples hmono hlb samples.length (le_refl _)
  rw [stateAt_length] at hinv
  obtain ⟨⟨hlen1, hlen2⟩, hB, hC, hD⟩ := hinv
  have hcommit := commit_good store dadt pq0 samples hmono hlb
    (samples.foldl (sweepStep store dadt) (sweepInit pq0)) samples.length (le_refl _) hC hD
  unfold sweepRun sweepFlush
  split
  · exact hB
  · rename_i hne
    intro k hk j hj h1 h2
    simp only [List.length_append, List.length_singleton] at hk
    rcases Nat.lt_or_ge k
        (samples.foldl (sweepStep store dadt) (sweepInit pq0)).bottomCuts.length with hklt | hkge
    · rw [List.getD_append _ _ _ _ (hlen1 ▸ hklt)] at h1
      rw [List.getD_append _ _ _ _ (hlen2 ▸ hklt)] at h2
      rw [List.getD_append _ _ _ _ hklt]
      exact hB k hklt j hj h1 h2
    · have hkeq : k = (samples.foldl (sweepStep store dadt) (sweepInit pq0)).bottomCuts.length := by
        omega
      subst hkeq
      rw [← hlen1, getD_append_last] at h1
      rw [← hlen2, getD_append_last] at h2
      rw [getD_append_last]
      exact hcommit hne j hj h1 h2

/-- Witness: a single constant cut over `[0, 1]`, sampled at `0` and `1/100`,
is committed over that range and passes the candidate test at sample 0. -/
theorem sweep_envelope_minimality_witness :
    PassAt [⟨0, 1, constCurve 1, 0⟩] 1 [(0, 0)] [0, mkRat 1 100] 0
      ((sweepRun [⟨0, 1, constCurve 1, 0⟩] 1 [0, mkRat 1 100] [(0, 0)]).bottomCuts.getD 0 0) :=
  sweep_envelope_minimality [⟨0, 1, constCurve 1, 0⟩] 1 [0, mkRat 1 100] [(0, 0)]
    (by decide) (by decide) 0 (by decide) 0 (by decide) (by decide) (by decide)

/-- The binary search stays inside the given range whenever `lo ≤ hi`, and
returns an ordered pair, for every predicate. -/
theorem searchForFloat_range (fuel : Nat) (lo hi : ℚ) (pred : ℚ → Bool) (h : lo ≤ hi) :
    lo ≤ (searchForFloat fuel lo hi pred).1 ∧
    (searchForFloat fuel lo hi pred).1 ≤ (searchForFloat fuel lo hi pred).2 ∧
    (searchForFloat fuel lo hi pred).2 ≤ hi := by
  unfold searchForFloat
  split
  · rename_i hlt
    have h1 := @getLinearRange_le fuel lo hi pred
    have h2 := @getLinearRange_lt fuel lo hi pred hlt
    have h3 := @bisectLoop_le pred fuel
      (getLinearRange fuel lo hi pred).1 (getLinearRange fuel lo hi pred).2
    have h4 := @bisectLoop_lt pred fuel _ _ h2
    exact ⟨le_trans h1.1 h3.1, le_of_lt h4, le_trans h3.2 h1.2⟩
  · exact ⟨le_refl _, h, le_refl _⟩

theorem getD_set_ne {α : Type} (l : List α) (m n : Nat) (v d : α) (h : m ≠ n) :
    (l.set m v).getD n d = l.getD n d := by
  rw [List.getD_eq_getElem?_getD, List.getElem?_set_ne h, List.getD_eq_getElem?_getD]

theorem getD_set_self {α : Type} (l : List α) (m : Nat) (v d : α) (h : m < l.length) :
    (l.set m v).getD m d = v := by
  rw [List.getD_eq_getElem?_getD, List.getElem?_set_self]
  · rfl
  · exact h

theorem nodup_getD_ne (l : List Nat) (h : l.Nodup) (i j : Nat)
    (hi : i < l.length) (hj : j < l.length) (hne : i ≠ j) : l.getD i 0 ≠ l.getD j 0 := by
  rw [List.getD_eq_getElem?_getD, List.getElem?_eq_getElem hi,
    List.getD_eq_getElem?_getD, List.getElem?_eq_getElem hj]
  simp only [Option.getD_some]
  intro hcon
  exact hne (List.Nodup.getElem_inj_iff h |>.mp hcon)

theorem chain_getD_lt (l : List ℚ) (h : List.Chain' (fun a b : ℚ => a < b) l)
    (i : Nat) (hi : i + 1 < l.length) : l.getD i 0 < l.getD (i + 1) 0 := by
  rw [List.getD_eq_getElem?_getD, List.getElem?_eq_getElem (by omega : i < l.length),
    List.getD_eq_getElem?_getD, List.getElem?_eq_getElem hi]
  simp only [Option.getD_some]
  exact List.chain'_iff_get.mp h i (by omega)

/-- Invariant of the stitching loop before iteration `i`: the store keeps its
length; start angles of cuts `i` onward and end angles of cuts `i - 1` onward
are untouched; every cut's span still brackets its commit start sample; and
all already-stitched adjacent pairs are non-overlapping. -/
def RefInv (store store2 : List Seg) (bc : List Nat) (starts : List ℚ) (i : Nat) : Prop :=
  store2.length = store.length ∧
  (∀ k, k < bc.length → i ≤ k →
    (store2.getD (bc.getD k 0) default).sa = (store.getD (bc.getD k 0) default).sa) ∧
  (∀ k, k < bc.length → i - 1 ≤ k →
    (store2.getD (bc.getD k 0) default).ea = (store.getD (bc.getD k 0) default).ea) ∧
  (∀ k, k < bc.length → (store2.getD (bc.getD k 0) default).sa ≤ starts.getD k 0 ∧
    starts.getD k 0 ≤ (store2.getD (bc.getD k 0) default).ea) ∧
  (∀ k, k + 1 < bc.length → k + 1 < i →
    (store2.getD (bc.getD k 0) default).ea ≤ (store2.getD (bc.getD (k + 1) 0) default).sa)

/-- One stitching iteration preserves the refinement invariant. -/
theorem refineStep_inv (store : List Seg) (dadt : ℚ) (sfuel : Nat) (bc : List Nat)
    (starts : List ℚ)
    (hnd : bc.Nodup) (hvalid : ∀ k, k < bc.length → bc.getD k 0 < store.length)
    (hinc : List.Chain' (fun a b : ℚ => a < b) starts) (hlenS : starts.length = bc.length)
    (store2 : List Seg) (i : Nat) (hi1 : 1 ≤ i) (hi : i < bc.length)
    (hinv : RefInv store store2 bc starts i) :
    RefInv store (refineStep dadt sfuel bc starts store2 i) bc starts (i + 1) := by
  obtain ⟨hlen, ha1, ha2, hb, hc⟩ := hinv
  have hii : i - 1 ≠ i := by omega
  have hi1lt : i - 1 < bc.length := by omega
  have hneLH : bc.getD (i - 1) 0 ≠ bc.getD i 0 := nodup_getD_ne bc hnd (i - 1) i hi1lt hi hii
  unfold refineStep
  simp only []
  split
  · rename_i hov
    set locut := store2.getD (bc.getD (i - 1) 0) default with hlocut
    set hicut := store2.getD (bc.getD i 0) default with hhicut
    set lohi := searchForFloat sfuel (fmax (starts.getD (i - 1) 0) hicut.sa)
      (fmin (starts.getD i 0) locut.ea) (fun testa =>
        decide (locut.curve.getR (fmul (fsub testa locut.rot) dadt) <
          hicut.curve.getR (fmul (fsub testa hicut.rot) dadt))) with hlohi
    set hia := if locut.curve.getR (fmul (fsub lohi.1 locut.rot) dadt) =
        hicut.curve.getR (fmul (fsub lohi.2 hicut.rot) dadt) then lohi.1 else lohi.2 with hhia
    have hmid : (store2.set (bc.getD (i - 1) 0) { locut with ea := lohi.1 }).getD
        (bc.getD i 0) default = hicut := by
      rw [getD_set_ne _ _ _ _ _ hneLH]
    rw [hmid]
    have hchain : starts.getD (i - 1) 0 ≤ starts.getD i 0 := by
      have h := chain_getD_lt starts hinc (i - 1) (by rw [hlenS]; omega)
      rw [Nat.sub_add_cancel hi1] at h
      exact le_of_lt h
    have hrange := searchForFloat_range sfuel (fmax (starts.getD (i - 1) 0) hicut.sa)
      (fmin (starts.getD i 0) locut.ea) (fun testa =>
        decide (locut.curve.getR (fmul (fsub testa locut.rot) dadt) <
          hicut.curve.getR (fmul (fsub testa hicut.rot) dadt)))
      (by
        rw [fmax_eq, fmin_eq]
        refine max_le (le_min ?_ ?_) (le_min ?_ ?_)
        · exact hchain
        · exact (hb (i - 1) hi1lt).2
        · exact (hb i hi).1
        · exact le_of_lt hov)
    rw [← hlohi] at hrange
    obtain ⟨hs1, hs2, hs3⟩ := hrange
    have hfin1 : lohi.1 ≤ hia := by
      rw [hhia]
      split
      · exact le_refl _
      · exact hs2
    have hfin2 : hia ≤ fmin (starts.getD i 0) locut.ea := by
      rw [hhia]
      split
      · exact le_trans hs2 hs3
      · exact hs3
    have hLbound : bc.getD (i - 1) 0 < store2.length := by
      rw [hlen]
      exact hvalid _ hi1lt
    have hHbound : bc.getD i 0 <
        (store2.set (bc.getD (i - 1) 0) { locut with ea := lohi.1 }).length := by
      rw [List.length_set, hlen]
      exact hvalid _ hi
    have hgetL : ((store2.set (bc.getD (i - 1) 0) { locut with ea := lohi.1 }).set
        (bc.getD i 0) { hicut with sa := hia }).getD (bc.getD (i - 1) 0) default =
        { locut with ea := lohi.1 } := by
      rw [getD_set_ne _ _ _ _ _ (Ne.symm hneLH), getD_set_self _ _ _ _ hLbound]
    have hgetH : ((store2.set (bc.getD (i - 1) 0) { locut with ea := lohi.1 }).set
        (bc.getD i 0) { hicut with sa := hia }).getD (bc.getD i 0) default =
        { hicut with sa := hia } := getD_set_self _ _ _ _ hHbound
    have hgetO : ∀ idx, idx ≠ bc.getD (i - 1) 0 → idx ≠ bc.getD i 0 →
        ((store2.set (bc.getD (i - 1) 0) { locut with ea := lohi.1 }).set
          (bc.getD i 0) { hicut with sa := hia }).getD idx default =
        store2.getD idx default := by
      intro idx h1 h2
      rw [getD_set_ne _ _ _ _ _ (Ne.symm h2), getD_set_ne _ _ _ _ _ (Ne.symm h1)]
    refine ⟨?_, ?_, ?_, ?_, ?_⟩
    · rw [List.length_set, List.length_set]
      exact hlen
    · intro k hk hik
      rw [hgetO _ (nodup_getD_ne bc hnd k (i - 1) hk hi1lt (by omega))
        (nodup_getD_ne bc hnd k i hk hi (by omega))]
      exact ha1 k hk (by omega)
    · intro k hk hik
      by_cases hk2 : k = i
      · subst hk2
        rw [hgetH]
        exact ha2 k hk (by omega)
      · rw [hgetO _ (nodup_getD_ne bc hnd k (i - 1) hk hi1lt (by omega))
          (nodup_getD_ne bc hnd k i hk hi hk2)]
        exact ha2 k hk (by omega)
    · intro k hk
      by_cases hk1 : k = i - 1
      · subst hk1
        rw [hgetL]
        constructor
        · exact (hb (i - 1) hi1lt).1
        · have hmx : starts.getD (i - 1) 0 ≤ fmax (starts.getD (i - 1) 0) hicut.sa := by
            rw [fmax_eq]
            exact le_max_left _ _
          exact le_trans hmx hs1
      · by_cases hk2 : k = i
        · subst hk2
          rw [hgetH]
          constructor
          · have hmn : fmin (starts.getD k 0) locut.ea ≤ starts.getD k 0 := by
              rw [fmin_eq]
              exact min_le_left _ _
            exact le_trans hfin2 hmn
          · exact (hb k hk).2
        · rw [hgetO _ (nodup_getD_ne bc hnd k (i - 1) hk hi1lt hk1)
            (nodup_getD_ne bc hnd k i hk hi hk2)]
          exact hb k hk
    · intro k hk hki
      by_cases hknew : k + 1 = i
      · have hkk : k = i - 1 := by omega
        rw [hkk, Nat.sub_add_cancel hi1, hgetL, hgetH]
        exact hfin1
      · have hko : k + 1 < i := by omega
        have hkne1 : bc.getD k 0 ≠ bc.getD (i - 1) 0 :=
          nodup_getD_ne bc hnd k (i - 1) (by omega) hi1lt (by omega)
        have hkne2 : bc.getD k 0 ≠ bc.getD i 0 :=
          nodup_getD_ne bc hnd k i (by omega) hi (by omega)
        by_cases hksucc : k + 1 = i - 1
        · rw [hgetO _ hkne1 hkne2, hksucc, hgetL]
          have hcc := hc k hk hko
          rw [hksucc] at hcc
          exact hcc
        · have hksne1 : bc.getD (k + 1) 0 ≠ bc.getD (i - 1) 0 :=
            nodup_getD_ne bc hnd (k + 1) (i - 1) hk hi1lt hksucc
          have hksne2 : bc.getD (k + 1) 0 ≠ bc.getD i 0 :=
            nodup_getD_ne bc hnd (k + 1) i hk hi hknew
          rw [hgetO _ hkne1 hkne2, hgetO _ hksne1 hksne2]
          exact hc k hk hko
  · rename_i hov
    refine ⟨hlen, ?_, ?_, hb, ?_⟩
    · intro k hk hik
      exact ha1 k hk (by omega)
    · intro k hk hik
      exact ha2 k hk (by omega)
    · intro k hk hki
      by_cases hknew : k + 1 = i
      · have hkk : k = i - 1 := by omega
        rw [hkk, Nat.sub_add_cancel hi1]
        exact le_of_not_lt hov
      · exact hc k hk (by omega)

theorem refineLoop_inv (store : List Seg) (dadt : ℚ) (sfuel : Nat) (bc : List Nat)
    (starts : List ℚ)
    (hnd : bc.Nodup) (hvalid : ∀ k, k < bc.length → bc.getD k 0 < store.length)
    (hinc : List.Chain' (fun a b : ℚ => a < b) starts) (hlenS : starts.length = bc.length) :
    ∀ n i store2, 1 ≤ i → i + n = bc.length → RefInv store store2 bc starts i →
      RefInv store (refineLoop dadt sfuel bc starts n i store2) bc starts (i + n) := by
  intro n
  induction n with
  | zero =>
    intro i store2 _ _ hinv
    exact hinv
  | succ nn ih =>
    intro i store2 hi1 hsum hinv
    have hi : i < bc.length := by omega
    have hstep := refineStep_inv store dadt sfuel bc starts hnd hvalid hinc hlenS
      store2 i hi1 hi hinv
    have hrec := ih (i + 1) (refineStep dadt sfuel bc starts store2 i) (by omega) (by omega) hstep
    have heq : i + (nn + 1) = i + 1 + nn := by omega
    rw [heq]
    simp only [refineLoop]
    exact hrec

/-- C2 (amended): after the stitching pass, adjacent output segments do not
overlap — but gaps and radius mismatches at the stitch can remain (see the
counterexample).  For any store, commit list `bc` of pairwise-distinct valid
indices, and strictly increasing commit start samples bracketed by each cut's
span (all established by the sweep), the refined segments satisfy
`end_k ≤ start_(k+1)` for every adjacent pair, and each segment still
brackets its commit start sample (so `start ≤ end` within each segment). -/
theorem refine_non_overlap (store : List Seg) (dadt : ℚ) (sfuel : Nat) (bc : List Nat)
    (starts : List ℚ)
    (hnd : bc.Nodup) (hlenS : starts.length = bc.length)
    (hvalid : ∀ k, k < bc.length → bc.getD k 0 < store.length)
    (hss : ∀ k, k < bc.length →
      (store.getD (bc.getD k 0) default).sa ≤ starts.getD k 0 ∧
      starts.getD k 0 ≤ (store.getD (bc.getD k 0) default).ea)
    (hinc : List.Chain' (fun a b : ℚ => a < b) starts) :
    (∀ k, k + 1 < bc.length →
      ((refineLoop dadt sfuel bc starts (bc.length - 1) 1 store).getD (bc.getD k 0) default).ea ≤
      ((refineLoop dadt sfuel bc starts (bc.length - 1) 1 store).getD (bc.getD (k + 1) 0) default).sa) ∧
    (∀ k, k < bc.length →
      ((refineLoop dadt sfuel bc starts (bc.length - 1) 1 store).getD (bc.getD k 0) default).sa ≤
      ((refineLoop dadt sfuel bc starts (bc.length - 1) 1 store).getD (bc.getD k 0) default).ea) := by
  rcases Nat.eq_zero_or_pos bc.length with hlen0 | hpos
  · constructor
    · intro k hk
      omega
    · intro k hk
      omega
  · have hinv0 : RefInv store store bc starts 1 := by
      refine ⟨rfl, ?_, ?_, hss, ?_⟩
      · intro k hk _
        rfl
      · intro k hk _
        rfl
      · intro k hk hki
        omega
    have hfin := refineLoop_inv store dadt sfuel bc starts hnd hvalid hinc hlenS
      (bc.length - 1) 1 store (le_refl _) (by omega) hinv0
    obtain ⟨_, _, _, hb, hcf⟩ := hfin
    constructor
    · intro k hk
      exact hcf k hk (by omega)
    · intro k hk
      exact le_trans (hb k hk).1 (hb k hk).2

/-- Witness: two overlapping constant cuts with commit samples `1/10 < 3/10`;
after stitching, the first segment ends at or before the second one's start. -/
theorem refine_non_overlap_witness :
    ((refineLoop 1 5 [0, 1] [mkRat 1 10, mkRat 3 10] 1 1
        [⟨0, mkRat 1 2, constCurve 1, 0⟩, ⟨mkRat 1 4, 1, constCurve 2, 0⟩]).getD 0 default).ea ≤
    ((refineLoop 1 5 [0, 1] [mkRat 1 10, mkRat 3 10] 1 1
        [⟨0, mkRat 1 2, constCurve 1, 0⟩, ⟨mkRat 1 4, 1, constCurve 2, 0⟩]).getD 1 default).sa :=
  (refine_non_overlap [⟨0, mkRat 1 2, constCurve 1, 0⟩, ⟨mkRat 1 4, 1, constCurve 2, 0⟩]
    1 5 [0, 1] [mkRat 1 10, mkRat 3 10]
    (by decide) (by decide)
    (by
      intro k hk
      simp only [List.length_cons, List.length_nil] at hk
      interval_cases k
      · decide
      · decide)
    (by
      intro k hk
      simp only [List.length_cons, List.length_nil] at hk
      interval_cases k
      · exact ⟨by decide, by decide⟩
      · exact ⟨by decide, by decide⟩)
    (by
      rw [List.chain'_cons]
      exact ⟨by decide, List.chain'_singleton _⟩)).1 0 (by decide)
